import Mathlib

/-!
Verification development for the multi-core-indexer repository.

The definitions below are a shallow embedding of the JavaScript sources:

* `FixedBitfield`, `Bitfield` — src/lib/bitfield.js (pages of 1024 × u32
  words, 32768 bits per page, dirty tracking via the `unflushed` list,
  `flush` writing pages at byte offset `pageIndex * 4096`, `open` reading
  the whole storage contents).
* `Core`, `CoreIndexStream` — src/lib/core-index-stream.js (the version
  with `setIndexed`/`inProgress`): `pushEntry`, `setIndexed`, `remaining`,
  the storage-name derivation `getStorageName`.
* `System`/`Op` — the observable state of the per-core streams plus the
  multiset of entries that have been pushed but not yet acknowledged via
  `setIndexed`; `Op` covers the state mutations performed by the read
  loop, the download/append handlers and the driver.
* `MultiAgg` — the `indexing`/`drained` aggregation of
  src/lib/multi-core-index-stream.js.
* `MultiCoreIndexer.getState` / `handleEntries` — src/index.js.

Machine integers are modelled as `Nat` (the JS code only ever holds
non-negative integers below 2^32 in the bitfield words and byte values
below 256 in buffers); storage is modelled as a byte function plus a
size, and fallible storage operations return `Except`.
-/

/-- One page of the bitfield: 1024 32-bit words (represented as a word
function; only arguments < 1024 are meaningful) plus the dirty flag.
Mirrors class `FixedBitfield` in src/lib/bitfield.js. -/
structure FixedBitfield where
  words : Nat → Nat
  dirty : Bool

namespace FixedBitfield

/-- `FixedBitfield.get`: bit `index % 32` of word `(index - index % 32) / 32`,
guarded by the word being in bounds (the Uint32Array always has length 1024). -/
def get (p : FixedBitfield) (index : Nat) : Bool :=
  let j := index % 32
  let i := (index - j) / 32
  decide (i < 1024) && Nat.testBit (p.words i) j

/-- The word-array update performed by `FixedBitfield.set`; returns the new
word function and whether a bit actually changed (the source's return value). -/
def setWords (p : FixedBitfield) (index : Nat) (val : Bool) : (Nat → Nat) × Bool :=
  let j := index % 32
  let i := (index - j) / 32
  let v := p.words i
  if val = Nat.testBit v j then (p.words, false)
  else
    let u := if val then v ||| 2 ^ j else v ^^^ 2 ^ j
    if u = v then (p.words, false)
    else (fun k => if k = i then u else p.words k, true)

end FixedBitfield

/-- The sparse paged bitfield of src/lib/bitfield.js.  `pages` is the
`BigSparseArray` keyed by page index; `unflushed` is the list of dirty page
indices (`undefined`, i.e. `none`, when the bitfield has no storage —
the in-memory `inProgress` bitfield). -/
structure Bitfield where
  pages : Nat → Option FixedBitfield
  unflushed : Option (List Nat)

/-- A byte buffer: length plus byte lookup (only arguments < `len` are
meaningful). -/
structure Buffer where
  len : Nat
  byte : Nat → Nat

/-- A concrete random-access storage: current size in bytes and byte
contents (zero beyond `size`). -/
structure FileStore where
  size : Nat
  byte : Nat → Nat

/-- `storage.write(offset, buf)`: replaces bytes `[offset, offset+len)`,
extends the file (zero padding any gap) when writing past the end. -/
def FileStore.write (fs : FileStore) (offset : Nat) (buf : Buffer) : FileStore :=
  { size := max fs.size (offset + buf.len)
    byte := fun o =>
      if offset ≤ o ∧ o < offset + buf.len then buf.byte (o - offset)
      else if o < fs.size then fs.byte o
      else 0 }

/-- An abstract storage handle as used by `Bitfield.open`: `stat` may fail
(any error is treated alike by the source), `read offset len` may fail. -/
structure Storage where
  stat : Except String Nat
  read : Nat → Nat → Except String Buffer

/-- View a concrete `FileStore` as a `Storage`: `stat` reports the size,
in-bounds reads succeed. -/
def FileStore.toStorage (fs : FileStore) : Storage :=
  { stat := .ok fs.size
    read := fun offset len =>
      if offset + len ≤ fs.size then
        .ok { len := len, byte := fun k => fs.byte (offset + k) }
      else .error "read out of bounds" }

/-- Reassemble a little-endian 32-bit word from four bytes (each byte is
taken mod 256, as a buffer byte is).  This is the `Uint32Array` view taken
by the `Bitfield` constructor. -/
def wordOfBytes (b0 b1 b2 b3 : Nat) : Nat :=
  b0 % 256 + 256 * (b1 % 256) + 65536 * (b2 % 256) + 16777216 * (b3 % 256)

/-- Word `k` of a storage as the constructor's `Uint32Array` view sees it. -/
def wordAt (fs : FileStore) (k : Nat) : Nat :=
  wordOfBytes (fs.byte (4 * k)) (fs.byte (4 * k + 1)) (fs.byte (4 * k + 2)) (fs.byte (4 * k + 3))

namespace Bitfield

/-- The `Bitfield` constructor: `make hasStorage buf` models
`new Bitfield(storage?, buf?)`.  With a buffer of at least 4 bytes the word
array is the `Uint32Array` view of `⌊len/4⌋` words, otherwise 1024 zero
words; pages are carved off 1024 words at a time, short final pages padded
with zeros (`ensureSize`). -/
def make (hasStorage : Bool) (buf : Option Buffer) : Bitfield :=
  let allLen : Nat :=
    match buf with
    | some data => if 4 ≤ data.len then data.len / 4 else 1024
    | none => 1024
  let allWord : Nat → Nat :=
    match buf with
    | some data =>
      if 4 ≤ data.len then
        fun k => wordOfBytes (data.byte (4 * k)) (data.byte (4 * k + 1))
          (data.byte (4 * k + 2)) (data.byte (4 * k + 3))
      else fun _ => 0
    | none => fun _ => 0
  let numPages := (allLen + 1023) / 1024
  { pages := fun i =>
      if i < numPages then
        some { words := fun w => if w < 1024 ∧ i * 1024 + w < allLen then allWord (i * 1024 + w) else 0
               dirty := false }
      else none
    unflushed := if hasStorage then some [] else none }

/-- `Bitfield.get(index)`: looks up page `(index - index % 32768) / 32768`;
an absent page reads as false. -/
def get (b : Bitfield) (index : Nat) : Bool :=
  let j := index % 32768
  let i := (index - j) / 32768
  match b.pages i with
  | none => false
  | some p => p.get j

/-- `Bitfield.set(index, val)`: a set-to-false on an absent page is a no-op;
otherwise the (possibly freshly allocated) page's word is updated, and on a
clean page that actually changed the page turns dirty and its index is
appended to `unflushed` (when the bitfield has storage). -/
def set (b : Bitfield) (index : Nat) (val : Bool) : Bitfield :=
  let j := index % 32768
  let i := (index - j) / 32768
  let p? : Option FixedBitfield :=
    match b.pages i with
    | some p => some p
    | none => if val then some { words := fun _ => 0, dirty := false } else none
  match p? with
  | none => b
  | some p =>
    let wc := p.setWords j val
    if wc.2 = false ∨ p.dirty = true then
      { pages := fun k => if k = i then some { words := wc.1, dirty := p.dirty } else b.pages k
        unflushed := b.unflushed }
    else
      { pages := fun k => if k = i then some { words := wc.1, dirty := true } else b.pages k
        unflushed := b.unflushed.map (fun l => l ++ [i]) }

/-- Serialise a page's 1024 words as 4096 little-endian bytes (the
`b4a.from(page.bitfield.buffer, …)` view written by `flush`). -/
def pageBuf (words : Nat → Nat) : Buffer :=
  { len := 4096, byte := fun t => words (t / 4) / 256 ^ (t % 4) % 256 }

/-- The sequence of storage writes performed by `flush`: each unflushed
page's 4096 bytes at byte offset `pageIndex * 4096`. -/
def flushWrites (b : Bitfield) (idxs : List Nat) (fs : FileStore) : FileStore :=
  idxs.foldl (fun acc i =>
    match b.pages i with
    | some p => acc.write (i * 4096) (pageBuf p.words)
    | none => acc) fs

/-- `Bitfield.flush()`: writes every unflushed page at byte offset
`pageIndex * 4096` and clears the dirty flags and the unflushed list.
Without storage, or with nothing unflushed, it is a no-op. -/
def flush (b : Bitfield) (fs : FileStore) : Bitfield × FileStore :=
  match b.unflushed with
  | none => (b, fs)
  | some idxs =>
    if idxs.length = 0 then (b, fs)
    else
      let fs' := flushWrites b idxs fs
      ({ pages := fun i =>
           match b.pages i with
           | some p => some { words := p.words, dirty := if i ∈ idxs then false else p.dirty }
           | none => none
         unflushed := some [] }, fs')

/-- `Bitfield.open(storage)`: a stat failure or a (4-byte-aligned) size of
zero yields a fresh empty bitfield; otherwise the aligned prefix is read and
a read failure rejects. -/
def openStorage (st : Storage) : Except String Bitfield :=
  match st.stat with
  | .error _ => .ok (make true none)
  | .ok statSize =>
    let size := statSize - statSize % 4
    if size = 0 then .ok (make true none)
    else
      match st.read 0 size with
      | .error e => .error e
      | .ok data => .ok (make true (some data))

end Bitfield

/-- Relation between in-memory pages and the storage: every true bit of a
clean (non-dirty) page lies inside the 4-byte-aligned readable prefix of
the file and agrees with the corresponding storage bit. -/
def cleanInv (b : Bitfield) (fs : FileStore) : Prop :=
  ∀ p pg, b.pages p = some pg → pg.dirty = false →
    ∀ w, w < 1024 → ∀ bit, bit < 32 →
      Nat.testBit (pg.words w) bit = true →
      p * 1024 + w < fs.size / 4 ∧ Nat.testBit (wordAt fs (p * 1024 + w)) bit = true

/-- Every dirty page's index is recorded in the unflushed list. -/
def dirtyInv (b : Bitfield) : Prop :=
  ∀ idxs, b.unflushed = some idxs →
    ∀ p pg, b.pages p = some pg → pg.dirty = true → p ∈ idxs

/-! ## Hex encoding and per-core storage names (src/lib/core-index-stream.js) -/

/-- `Buffer.toString('hex')` over a byte list: two lowercase hex digits per
byte (`Nat.digitChar` maps 0–15 to `0`–`9`, `a`–`f`). -/
def hexStr : List Nat → List Char
  | [] => []
  | b :: rest => Nat.digitChar (b / 16 % 16) :: Nat.digitChar (b % 16) :: hexStr rest

/-- `getStorageName(discoveryKey)` from src/lib/core-index-stream.js:
`[id.slice(0, 2), id.slice(2, 4), id].join('/')` where `id` is the hex of
the discovery key. -/
def getStorageName (discoveryKey : List Nat) : List Char :=
  let id := hexStr discoveryKey
  id.take 2 ++ ['/'] ++ (id.drop 2).take 2 ++ ['/'] ++ id

/-- The storage-path formula as the specification words it:
`h[0:2] + "/" + h[2:4] + "/" + h` for `h` the hex encoding of the
discovery key.  Stated from the spec for comparison against
`getStorageName`. -/
def specStorageName (discoveryKey : List Nat) : List Char :=
  let h := hexStr discoveryKey
  h.take 2 ++ ['/'] ++ (h.take 4).drop 2 ++ ['/'] ++ h

/-- The sixteen lowercase hexadecimal digit characters, `0`–`9` (codes
48–57) then `a`–`f` (codes 97–102). -/
def hexDigits : List Char :=
  (List.range 10).map (fun d => Char.ofNat (48 + d))
    ++ (List.range 6).map (fun d => Char.ofNat (97 + d))

/-! ## The per-core stream and the driver-visible system state -/

/-- The hypercore as the stream observes it: stable `key` and
`discoveryKey` (byte lists), current `length`, and `get(i, {wait:false})`
as a partial block lookup (`none` = not locally present). -/
structure Core where
  key : List Nat
  discoveryKey : List Nat
  length : Nat
  blocks : Nat → Option (List Nat)

/-- The entry object built by `CoreIndexStream.#pushEntry`:
`{ key: this.#core.key, block, index }`. -/
structure Entry where
  key : List Nat
  block : List Nat
  index : Nat
deriving DecidableEq

/-- The mutable state of one `CoreIndexStream` (src/lib/core-index-stream.js):
scan position `index`, the persisted `indexed` bitfield, the in-memory
`inProgress` bitfield and counter, the `downloaded` set and the
`drained` flag. -/
structure CoreIndexStream where
  core : Core
  indexedBitfield : Bitfield
  inProgressBitfield : Bitfield
  inProgress : Nat
  index : Nat
  downloaded : List Nat
  drained : Bool

namespace CoreIndexStream

/-- `get remaining()`:
`core.length - index + downloaded.size + inProgress`. -/
def remaining (s : CoreIndexStream) : Nat :=
  s.core.length - s.index + s.downloaded.length + s.inProgress

/-- `#pushEntry(index)`: skip if the indexed or in-progress bit is set or
the block is absent; otherwise mark in-progress, bump the in-flight count
and push `{ key, block, index }`.  Returns the new state and the pushed
entry (if any). -/
def pushEntry (s : CoreIndexStream) (index : Nat) : CoreIndexStream × Option Entry :=
  let isProcessed := s.indexedBitfield.get index || s.inProgressBitfield.get index
  if isProcessed then (s, none)
  else
    match s.core.blocks index with
    | none => (s, none)
    | some block =>
      ({ s with inProgressBitfield := s.inProgressBitfield.set index true
                inProgress := s.inProgress + 1 },
       some { key := s.core.key, block := block, index := index })

/-- `setIndexed(index)`: decrement the in-flight count, set the indexed
bit, clear the in-progress bit. -/
def setIndexed (s : CoreIndexStream) (index : Nat) : CoreIndexStream :=
  { s with inProgress := s.inProgress - 1
           indexedBitfield := s.indexedBitfield.set index true
           inProgressBitfield := s.inProgressBitfield.set index false }

/-- Whether `#pushEntry` would classify `index` as already processed. -/
def processed (s : CoreIndexStream) (index : Nat) : Bool :=
  s.indexedBitfield.get index || s.inProgressBitfield.get index

/-- A freshly opened stream: scan position 0, empty download set, no
in-flight entries, a fresh in-memory `inProgress` bitfield, and whatever
`indexed` bitfield `Bitfield.open` produced from storage. -/
def fresh (core : Core) (indexedBf : Bitfield) : CoreIndexStream :=
  { core := core
    indexedBitfield := indexedBf
    inProgressBitfield := Bitfield.make false none
    inProgress := 0
    index := 0
    downloaded := []
    drained := false }

end CoreIndexStream

/-- Driver-visible system state: the per-core streams plus the entries that
have been pushed into the pipeline but not yet acknowledged through
`setIndexed` (each as a pair of stream position and block index).  Every
entry handed to the batch function, and every entry still inside the
stream buffers, is in `pending`. -/
structure System where
  streams : List CoreIndexStream
  pending : List (Nat × Nat)

/-- The state mutations of the pipeline: one step of the linear scan loop,
one step of the downloaded-set loop, a `setIndexed` acknowledgement from
the driver, an `append` on a core, and a `download` notification. -/
inductive Op where
  | scan (k : Nat)
  | downloadPush (k i : Nat)
  | setIdx (k i : Nat)
  | append (k n : Nat) (f : Nat → Option (List Nat))
  | download (k i : Nat) (blk : List Nat)

/-- Apply one operation.  Guards that do not hold in the source (an ack for
an entry that was never delivered, an out-of-range stream position, a scan
past the end) leave the state unchanged. -/
def applyOp (sys : System) (op : Op) : System :=
  match op with
  | .scan k =>
    match sys.streams.get? k with
    | none => sys
    | some s =>
      if s.index < s.core.length then
        let se := s.pushEntry s.index
        let s' := { se.1 with index := se.1.index + 1 }
        { streams := sys.streams.set k s'
          pending := match se.2 with
            | some e => sys.pending ++ [(k, e.index)]
            | none => sys.pending }
      else sys
  | .downloadPush k i =>
    match sys.streams.get? k with
    | none => sys
    | some s =>
      if i ∈ s.downloaded then
        let se := CoreIndexStream.pushEntry { s with downloaded := s.downloaded.erase i } i
        { streams := sys.streams.set k se.1
          pending := match se.2 with
            | some e => sys.pending ++ [(k, e.index)]
            | none => sys.pending }
      else sys
  | .setIdx k i =>
    match sys.streams.get? k with
    | none => sys
    | some s =>
      if (k, i) ∈ sys.pending then
        { streams := sys.streams.set k (s.setIndexed i)
          pending := sys.pending.erase (k, i) }
      else sys
  | .append k n f =>
    match sys.streams.get? k with
    | none => sys
    | some s =>
      { streams := sys.streams.set k
          { s with core :=
              { s.core with
                  length := s.core.length + n
                  blocks := fun j => if j < s.core.length then s.core.blocks j else f j } }
        pending := sys.pending }
  | .download k i blk =>
    match sys.streams.get? k with
    | none => sys
    | some s =>
      { streams := sys.streams.set k
          { s with downloaded := s.downloaded.insert i
                   core := { s.core with blocks := fun j => if j = i then some blk else s.core.blocks j } }
        pending := sys.pending }

/-- Apply a sequence of operations. -/
def applyOps (sys : System) (ops : List Op) : System :=
  ops.foldl applyOp sys

/-- How many pending pipeline entries belong to stream `k`. -/
def countFor (pending : List (Nat × Nat)) (k : Nat) : Nat :=
  pending.countP (fun e => e.1 = k)

/-- `MultiCoreIndexStream.remaining` (src/lib/multi-core-index-stream.js):
a running sum of the inner streams' `remaining`. -/
def multiRemaining (streams : List CoreIndexStream) : Nat :=
  streams.foldl (fun acc s => acc + s.remaining) 0

/-- Total remaining as the sum over the stream list. -/
def totalRemaining (sys : System) : Nat :=
  (sys.streams.map CoreIndexStream.remaining).sum

/-- The reachability invariant of the pipeline: every stream's in-flight
counter equals the number of its pending entries, pending entries are
distinct, each pending entry's in-progress bit is set, and the scan
position never passes the core length. -/
structure SysInv (sys : System) : Prop where
  inflight : ∀ k s, sys.streams.get? k = some s → s.inProgress = countFor sys.pending k
  nodup : sys.pending.Nodup
  inprog : ∀ e ∈ sys.pending, ∃ s, sys.streams.get? e.1 = some s ∧
    s.inProgressBitfield.get e.2 = true
  scanLe : ∀ k s, sys.streams.get? k = some s → s.index ≤ s.core.length

/-! ## MultiCoreIndexStream event aggregation (src/lib/multi-core-index-stream.js) -/

/-- The aggregation state: the inner streams' `drained` flags (in stream
order) and the cached aggregate `#drained` flag. -/
structure MultiAgg where
  flags : List Bool
  drained : Bool

/-- `drained` recomputation in `#handleDrained`: scan all inner streams,
false as soon as one is not drained. -/
def allDrained (flags : List Bool) : Bool :=
  flags.all (fun b => b)

/-- The aggregate events the fan-in can emit. -/
inductive AggEvent where
  | indexing
  | drainedEv
deriving DecidableEq

/-- An event arriving from inner stream `k`.  A `CoreIndexStream` sets its
own `drained` flag immediately before emitting (`#drained = false` before
`indexing`, `#drained = true` before `drained`), so the flag update is part
of the event. -/
inductive InnerEvent where
  | indexing (k : Nat)
  | drainedEv (k : Nat)

namespace MultiAgg

/-- `#handleIndexing`: if the aggregate was not drained, do nothing;
otherwise flip the cache to false and emit `indexing`. -/
def handleIndexing (m : MultiAgg) : MultiAgg × Option AggEvent :=
  if m.drained = false then (m, none)
  else ({ m with drained := false }, some .indexing)

/-- `#handleDrained`: recompute `all drained` over the inner streams;
return unless the value is unchanged-and-false; otherwise store it and
emit `drained`. -/
def handleDrained (m : MultiAgg) : MultiAgg × Option AggEvent :=
  let d := allDrained m.flags
  if d = m.drained ∧ d = false then (m, none)
  else ({ m with drained := d }, some .drainedEv)

/-- Process one inner event: update that stream's flag, then run the
corresponding handler. -/
def applyEvent (m : MultiAgg) (e : InnerEvent) : MultiAgg × Option AggEvent :=
  match e with
  | .indexing k => handleIndexing { m with flags := m.flags.set k false }
  | .drainedEv k => handleDrained { m with flags := m.flags.set k true }

end MultiAgg

/-! ## The indexer driver (src/index.js) -/

/-- The four driver states. -/
inductive IndexStateCurrent where
  | idle
  | indexing
  | closing
  | closed
deriving DecidableEq

/-- The observable `IndexState` record. -/
structure IndexState where
  current : IndexStateCurrent
  remaining : Nat
  entriesPerSecond : ℚ

/-- The driver's private state: `#state`, the EMA `#rate`, the EMA clock
`#rateMeasurementStart` and whether a `#pendingIdle` deferred exists. -/
structure MultiCoreIndexer where
  state : IndexStateCurrent
  rate : ℚ
  rateMeasurementStart : ℚ
  pendingIdle : Bool

namespace MultiCoreIndexer

/-- `#getState()`: in `idle`/`indexing`, recompute the state from
`remaining` and the aggregate `drained` flag, resolving a pending `idle()`
on entry to idle and resetting the rate clock on an idle → indexing edge;
in `closing`/`closed`, leave the state alone.  Returns the updated driver
and the reported `IndexState`. -/
def getState (m : MultiCoreIndexer) (remaining : Nat) (drained : Bool) (now : ℚ) :
    MultiCoreIndexer × IndexState :=
  let m' : MultiCoreIndexer :=
    match m.state with
    | .idle | .indexing =>
      let st : IndexStateCurrent := if remaining = 0 ∧ drained = true then .idle else .indexing
      let m1 := { m with state := st }
      let m2 := if st = .idle ∧ m1.pendingIdle = true then { m1 with pendingIdle := false } else m1
      if st = .indexing ∧ m.state = .idle then { m2 with rateMeasurementStart := now } else m2
    | .closing | .closed => m
  (m', { current := m'.state, remaining := remaining, entriesPerSecond := m'.rate })

/-- The driver lifecycle operations that touch `#state`: a state query
(every `#emitState`/`state` access), the synchronous head of `close()`
(which `#assertOpen`-guards and then sets `closing`), and the tail of
`close()` (which sets `closed`). -/
inductive LifeOp where
  | query (remaining : Nat) (drained : Bool) (now : ℚ)
  | closeBegin
  | closeEnd

/-- Apply one lifecycle operation. -/
def applyLife (m : MultiCoreIndexer) (op : LifeOp) : MultiCoreIndexer :=
  match op with
  | .query remaining drained now => (m.getState remaining drained now).1
  | .closeBegin =>
    match m.state with
    | .idle | .indexing => { m with state := .closing }
    | .closing | .closed => m
  | .closeEnd =>
    match m.state with
    | .closing => { m with state := .closed }
    | _ => m

/-- The result of one `#handleEntries` call: the driver state afterwards,
whether the user batch function was invoked, and the `setIndexed`
acknowledgements routed into the fan-in (stream id, block index). -/
structure HandleResult where
  indexer : MultiCoreIndexer
  batchCalled : Bool
  acks : List (List Char × Nat)

/-- `#handleEntries(entries)` (src/index.js): emit state, return early on an
empty batch, otherwise await the batch, route `setIndexed(key hex, index)`
for every entry, update the EMA rate and the rate clock, and emit state
again.  `now0` is the clock at entry, `now1` the clock after the batch. -/
def handleEntries (m : MultiCoreIndexer) (entries : List Entry)
    (remaining : Nat) (drained : Bool) (now0 now1 : ℚ) : HandleResult :=
  let m1 := (m.getState remaining drained now0).1
  if entries.length = 0 then
    { indexer := m1, batchCalled := false, acks := [] }
  else
    let acks := entries.map (fun e => (hexStr e.key, e.index))
    let batchTime := now1 - m1.rateMeasurementStart
    let r : ℚ := (entries.length : ℚ) / (batchTime / 1000)
    let newRate := r + (if 0 < m1.rate then (m1.rate - r) / 5 else 0)
    let m2 := { m1 with rate := newRate, rateMeasurementStart := now1 }
    let m3 := (m2.getState remaining drained now1).1
    { indexer := m3, batchCalled := true, acks := acks }

end MultiCoreIndexer

/-! ## Concrete sample objects used by witnesses and evaluations -/

/-- A sample core whose public key (32 × 0x01) differs from its discovery
key (32 × 0x02), with one locally present block at position 0. -/
def demoCore : Core :=
  { key := List.replicate 32 1
    discoveryKey := List.replicate 32 2
    length := 1
    blocks := fun j => if j = 0 then some [42] else none }

/-- A freshly opened stream over `demoCore` with an empty indexed bitfield. -/
def demoStream : CoreIndexStream :=
  CoreIndexStream.fresh demoCore (Bitfield.make true none)

/-- A one-stream system with nothing in flight. -/
def demoSystem : System :=
  { streams := [demoStream], pending := [] }

/-- An empty storage file. -/
def emptyStore : FileStore :=
  { size := 0, byte := fun _ => 0 }

/-! ## Helper lemmas -/

theorem getState_rate (m : MultiCoreIndexer) (remaining : Nat) (drained : Bool) (now : ℚ) :
    ((m.getState remaining drained now).1).rate = m.rate := by
  cases m with
  | mk st r rs pi =>
    cases st <;> simp only [MultiCoreIndexer.getState] <;> split_ifs <;> rfl

theorem getState_state_of_closing (m : MultiCoreIndexer) (remaining : Nat) (drained : Bool)
    (now : ℚ) (h : m.state = .closing ∨ m.state = .closed) :
    ((m.getState remaining drained now).1).state = m.state := by
  cases m with
  | mk st r rs pi =>
    cases st <;> simp_all [MultiCoreIndexer.getState]

theorem hexStr_length (bs : List Nat) : (hexStr bs).length = 2 * bs.length := by
  induction bs with
  | nil => rfl
  | cons b rest ih => simp [hexStr, ih]; ring

theorem digitChar_mem_hex : ∀ r : Fin 16,
    Nat.digitChar r.val ∈
      hexDigits := by
  decide

theorem hexStr_mem (bs : List Nat) :
    ∀ c ∈ hexStr bs,
      c ∈ hexDigits := by
  induction bs with
  | nil => intro c hc; cases hc
  | cons b rest ih =>
    intro c hc
    rcases hc with _ | ⟨_, hc⟩
    · exact digitChar_mem_hex ⟨b / 16 % 16, Nat.mod_lt _ (by norm_num)⟩
    · rcases hc with _ | ⟨_, hc⟩
      · exact digitChar_mem_hex ⟨b % 16, Nat.mod_lt _ (by norm_num)⟩
      · exact ih c hc

/-! ## Claims about the driver state machine and handleEntries -/

/-- Claim C4: at any observation point (a `#getState` recomputation), the
reported state is `idle` iff `remaining = 0`, the aggregate drained flag is
set, and `close()` has not been entered (the driver state is not
`closing`/`closed`); once in `closing`/`closed`, no lifecycle operation
ever brings the state back to `idle` or `indexing`. -/
theorem claim_C4 :
    (∀ (m : MultiCoreIndexer) (remaining : Nat) (drained : Bool) (now : ℚ),
      (m.getState remaining drained now).2.current = .idle ↔
        (remaining = 0 ∧ drained = true ∧ m.state ≠ .closing ∧ m.state ≠ .closed))
    ∧ (∀ (m : MultiCoreIndexer) (remaining : Nat) (drained : Bool) (now : ℚ),
        m.state = .closing ∨ m.state = .closed →
        (m.getState remaining drained now).2.current = m.state)
    ∧ (∀ (m : MultiCoreIndexer) (ops : List MultiCoreIndexer.LifeOp),
        m.state = .closing ∨ m.state = .closed →
        (ops.foldl MultiCoreIndexer.applyLife m).state = .closing ∨
          (ops.foldl MultiCoreIndexer.applyLife m).state = .closed) := by
  refine ⟨?_, ?_, ?_⟩
  · intro m remaining drained now
    cases m with
    | mk st r rs pi =>
      cases st <;>
        simp only [MultiCoreIndexer.getState] <;>
        (try split_ifs with h1 h2 h3) <;>
        simp_all
  · intro m remaining drained now h
    cases m with
    | mk st r rs pi => cases st <;> simp_all [MultiCoreIndexer.getState]
  · intro m ops h
    induction ops generalizing m with
    | nil => simpa using h
    | cons op rest ih =>
      refine ih (MultiCoreIndexer.applyLife m op) ?_
      cases m with
      | mk st r rs pi =>
        cases op with
        | query remaining drained now =>
          rcases h with h | h <;> simp_all [MultiCoreIndexer.applyLife, MultiCoreIndexer.getState]
        | closeBegin => rcases h with h | h <;> simp_all [MultiCoreIndexer.applyLife]
        | closeEnd => rcases h with h | h <;> simp_all [MultiCoreIndexer.applyLife]

/-- Witness for C4 at a concrete closing driver. -/
theorem claim_C4_witness :
    ((⟨.closing, 0, 0, false⟩ : MultiCoreIndexer).state = .closing ∨
      (⟨.closing, 0, 0, false⟩ : MultiCoreIndexer).state = .closed) ∧
    (MultiCoreIndexer.getState ⟨.closing, 0, 0, false⟩ 0 true 0).2.current = .closing :=
  ⟨Or.inl rfl, claim_C4.2.1 ⟨.closing, 0, 0, false⟩ 0 true 0 (Or.inl rfl)⟩

/-- Claim C10: `#handleEntries` with an empty entries array never invokes
the user batch function, routes no `setIndexed` acknowledgements (so the
bitfields are untouched), and leaves the EMA rate estimate unchanged. -/
theorem claim_C10 :
    ∀ (m : MultiCoreIndexer) (remaining : Nat) (drained : Bool) (now0 now1 : ℚ),
      (MultiCoreIndexer.handleEntries m [] remaining drained now0 now1).batchCalled = false
      ∧ (MultiCoreIndexer.handleEntries m [] remaining drained now0 now1).acks = []
      ∧ (MultiCoreIndexer.handleEntries m [] remaining drained now0 now1).indexer.rate = m.rate := by
  intro m remaining drained now0 now1
  refine ⟨rfl, rfl, ?_⟩
  simpa [MultiCoreIndexer.handleEntries] using getState_rate m remaining drained now0

/-- Claim C1 (divergence evidence): on a core whose public key is 32 × 0x01
and whose discovery key is 32 × 0x02, the entry pushed for block 0 carries
the public key — `{ key, block, index }` — and the identifier that
`#handleEntries` routes `setIndexed` with is the hex of the public key,
which differs from the hex of the discovery key (the `discoveryId` that the
spec, `lib/types.ts` and the test suite prescribe). -/
theorem claim_C1 :
    (demoStream.pushEntry 0).2 =
      some { key := List.replicate 32 1, block := [42], index := 0 }
    ∧ (MultiCoreIndexer.handleEntries ⟨.indexing, 0, 0, false⟩
        [{ key := List.replicate 32 1, block := [42], index := 0 }] 1 false 0 1).acks =
        [(hexStr (List.replicate 32 1), 0)]
    ∧ hexStr (List.replicate 32 1) ≠ hexStr (List.replicate 32 2) := by
  refine ⟨by decide, rfl, by decide⟩

/-- Claim C6: the per-core storage name handed to `createStorage` is
`h[0:2] + "/" + h[2:4] + "/" + h` for `h` the 64-character lowercase hex
encoding of the core's 32-byte discovery key (and, being a pure function of
the key, the same key always produces the same path). -/
theorem claim_C6 :
    ∀ dk : List Nat, dk.length = 32 →
      getStorageName dk = specStorageName dk
      ∧ (hexStr dk).length = 64
      ∧ ∀ c ∈ hexStr dk,
          c ∈ hexDigits := by
  intro dk hlen
  refine ⟨?_, ?_, hexStr_mem dk⟩
  · simp [getStorageName, specStorageName, List.drop_take]
  · simp [hexStr_length, hlen]

/-- Witness for C6 at the sample discovery key (32 × 0x02). -/
theorem claim_C6_witness :
    (List.replicate 32 2 : List Nat).length = 32 ∧
      getStorageName (List.replicate 32 2) = specStorageName (List.replicate 32 2) :=
  ⟨by decide, (claim_C6 (List.replicate 32 2) (by decide)).1⟩

/-- Claim C9: `Bitfield.open` never rejects because of `stat`: any stat
failure, or a reported size below 4 bytes, yields an all-false bitfield
over that storage; an error can escape only from the read of the existing
contents. -/
theorem claim_C9 :
    (∀ i, (Bitfield.make true none).get i = false)
    ∧ (∀ (st : Storage) (err : String), st.stat = .error err →
        Bitfield.openStorage st = .ok (Bitfield.make true none))
    ∧ (∀ (st : Storage) (n : Nat), st.stat = .ok n → n < 4 →
        Bitfield.openStorage st = .ok (Bitfield.make true none))
    ∧ (∀ (st : Storage) (e : String), Bitfield.openStorage st = .error e →
        ∃ n, st.stat = .ok n ∧ 4 ≤ n ∧ st.read 0 (n - n % 4) = .error e) := by
  refine ⟨?_, ?_, ?_, ?_⟩
  · intro i
    simp only [Bitfield.make, Bitfield.get]
    split
    · rfl
    · rename_i p hp
      split at hp
      · cases hp
        simp only [FixedBitfield.get]
        split <;> simp
      · cases hp
  · intro st err h
    simp [Bitfield.openStorage, h]
  · intro st n h hlt
    have hz : n - n % 4 = 0 := by omega
    simp [Bitfield.openStorage, h, hz]
  · intro st e h
    unfold Bitfield.openStorage at h
    cases hstat : st.stat with
    | error err => rw [hstat] at h; cases h
    | ok n =>
      rw [hstat] at h
      by_cases hz : n - n % 4 = 0
      · simp [hz] at h
      · refine ⟨n, rfl, by omega, ?_⟩
        simp only [if_neg hz] at h
        cases hread : st.read 0 (n - n % 4) with
        | error e' => rw [hread] at h; cases h; rfl
        | ok data => rw [hread] at h; cases h

/-- Witness for C9 at a concrete storage whose stat fails. -/
theorem claim_C9_witness :
    (Storage.stat ⟨.error "ENOENT", fun _ _ => .error "ENOENT"⟩ = .error "ENOENT") ∧
      Bitfield.openStorage ⟨.error "ENOENT", fun _ _ => .error "ENOENT"⟩ =
        .ok (Bitfield.make true none) :=
  ⟨rfl, claim_C9.2.1 ⟨.error "ENOENT", fun _ _ => .error "ENOENT"⟩ "ENOENT" rfl⟩

/-! ## Bitfield get/set lemmas -/

theorem FixedBitfield.setWords_fst_apply_ne (p : FixedBitfield) (index : Nat) (val : Bool)
    (k : Nat) (hk : k ≠ (index - index % 32) / 32) :
    (p.setWords index val).1 k = p.words k := by
  simp only [FixedBitfield.setWords]
  split_ifs <;> simp [hk]

theorem FixedBitfield.testBit_setWords_self (p : FixedBitfield) (index : Nat) :
    Nat.testBit ((p.setWords index true).1 ((index - index % 32) / 32)) (index % 32) = true := by
  simp only [FixedBitfield.setWords]
  split_ifs with h1 h2
  · exact h1.symm
  · have h3 := congrArg (fun x => Nat.testBit x (index % 32)) h2
    simp at h3
    simp [h3] at h1
  · simp

theorem FixedBitfield.testBit_setWords_other_bit (p : FixedBitfield) (index : Nat) (val : Bool)
    (b : Nat) (hb : b ≠ index % 32) :
    Nat.testBit ((p.setWords index val).1 ((index - index % 32) / 32)) b
      = Nat.testBit (p.words ((index - index % 32) / 32)) b := by
  simp only [FixedBitfield.setWords]
  split_ifs <;>
    simp [Nat.testBit_two_pow_of_ne (Ne.symm hb)]

theorem Bitfield.get_unfold (b : Bitfield) (ii : Nat) :
    b.get ii =
      match b.pages ((ii - ii % 32768) / 32768) with
      | none => false
      | some p => p.get (ii % 32768) := rfl

theorem FixedBitfield.getBit_unfold (p : FixedBitfield) (j : Nat) :
    p.get j =
      (decide ((j - j % 32) / 32 < 1024) && Nat.testBit (p.words ((j - j % 32) / 32)) (j % 32)) :=
  rfl

theorem Bitfield.get_set_self_true (b : Bitfield) (i : Nat) :
    (b.set i true).get i = true := by
  have hw : ((i % 32768) - (i % 32768) % 32) / 32 < 1024 := by omega
  simp only [Bitfield.set]
  cases hp : b.pages ((i - i % 32768) / 32768) with
  | none =>
    dsimp only
    split
    · rename_i heq
      simp at heq
    · rename_i p0 heq
      simp at heq
      subst heq
      split <;>
        simp [Bitfield.get, FixedBitfield.get, hw, FixedBitfield.testBit_setWords_self]
  | some p =>
    dsimp only
    split <;>
      simp [Bitfield.get, FixedBitfield.get, hw, FixedBitfield.testBit_setWords_self]

theorem Bitfield.get_set_ne (b : Bitfield) {i ii : Nat} (hne : ii ≠ i) (val : Bool) :
    (Bitfield.set b i val).get ii = b.get ii := by
  have hbit : (ii - ii % 32768) / 32768 = (i - i % 32768) / 32768 →
      (ii % 32768 - ii % 32768 % 32) / 32 = (i % 32768 - i % 32768 % 32) / 32 →
      ii % 32768 % 32 ≠ i % 32768 % 32 := by omega
  simp only [Bitfield.set]
  cases hp : b.pages ((i - i % 32768) / 32768) with
  | none =>
    cases val with
    | false => rfl
    | true =>
      dsimp only
      split
      · rename_i heq
        simp at heq
      · rename_i p0 heq
        simp at heq
        subst heq
        split <;>
        · rw [Bitfield.get_unfold, Bitfield.get_unfold b]
          dsimp only
          by_cases hP : (ii - ii % 32768) / 32768 = (i - i % 32768) / 32768
          · rw [hP, hp]
            rw [if_pos rfl]
            dsimp only
            rw [FixedBitfield.getBit_unfold]
            dsimp only
            by_cases hW :
                (ii % 32768 - ii % 32768 % 32) / 32 = (i % 32768 - i % 32768 % 32) / 32
            · rw [hW, FixedBitfield.testBit_setWords_other_bit _ _ _ _ (hbit hP hW)]
              simp
            · rw [FixedBitfield.setWords_fst_apply_ne _ _ _ _ hW]
              simp
          · simp only [if_neg hP]
  | some p =>
    dsimp only
    split <;>
    · rw [Bitfield.get_unfold, Bitfield.get_unfold b]
      dsimp only
      by_cases hP : (ii - ii % 32768) / 32768 = (i - i % 32768) / 32768
      · rw [hP, hp]
        rw [if_pos rfl]
        dsimp only
        rw [FixedBitfield.getBit_unfold, FixedBitfield.getBit_unfold]
        dsimp only
        by_cases hW : (ii % 32768 - ii % 32768 % 32) / 32 = (i % 32768 - i % 32768 % 32) / 32
        · rw [hW, FixedBitfield.testBit_setWords_other_bit _ _ _ _ (hbit hP hW)]
        · rw [FixedBitfield.setWords_fst_apply_ne _ _ _ _ hW]
      · simp only [if_neg hP]

theorem Bitfield.get_set_of_get_true (b : Bitfield) {j : Nat} (i : Nat) (h : b.get j = true) :
    (Bitfield.set b i true).get j = true := by
  by_cases hji : j = i
  · subst hji; exact Bitfield.get_set_self_true b j
  · rw [Bitfield.get_set_ne b hji]; exact h

theorem Bitfield.set_unflushed_isSome (b : Bitfield) (i : Nat) (v : Bool) :
    ((Bitfield.set b i v).unflushed).isSome = b.unflushed.isSome := by
  simp only [Bitfield.set]
  cases hp : b.pages ((i - i % 32768) / 32768) with
  | none =>
    cases v with
    | false => rfl
    | true =>
      dsimp only
      split
      · rename_i heq; simp at heq
      · rename_i p0 heq
        simp at heq
        subst heq
        split <;> simp
  | some p =>
    dsimp only
    split <;> simp

theorem Bitfield.flush_fst_get (b : Bitfield) (fs : FileStore) (i : Nat) :
    ((Bitfield.flush b fs).1).get i = b.get i := by
  simp only [Bitfield.flush]
  cases hu : b.unflushed with
  | none => rfl
  | some idxs =>
    by_cases hlen : idxs.length = 0
    · simp [hlen]
    · simp only [if_neg hlen]
      rw [Bitfield.get_unfold, Bitfield.get_unfold]
      dsimp only
      cases hp : b.pages ((i - i % 32768) / 32768) <;> simp [hp, FixedBitfield.get]

/-! ## Exactly-once machinery (claim C2) -/

theorem get?_some_lt {α : Type} {l : List α} {k : Nat} {a : α} (h : l.get? k = some a) :
    k < l.length := by
  by_contra hk
  rw [List.get?_eq_none.mpr (by omega)] at h
  cases h

theorem CoreIndexStream.processed_pushEntry (s : CoreIndexStream) (j i : Nat)
    (h : s.processed i = true) : ((s.pushEntry j).1).processed i = true := by
  simp only [CoreIndexStream.pushEntry]
  split_ifs with h1
  · exact h
  · cases hb : s.core.blocks j with
    | none => exact h
    | some blk =>
      simp only [CoreIndexStream.processed] at h ⊢
      rcases Bool.or_eq_true_iff.mp h with hcase | hcase
      · simp [hcase]
      · simp [Bitfield.get_set_of_get_true _ j hcase]

theorem CoreIndexStream.processed_setIndexed (s : CoreIndexStream) (j i : Nat)
    (h : s.processed i = true) : (s.setIndexed j).processed i = true := by
  simp only [CoreIndexStream.processed, CoreIndexStream.setIndexed] at h ⊢
  by_cases hji : i = j
  · subst hji
    simp [Bitfield.get_set_self_true]
  · rw [Bitfield.get_set_ne _ hji, Bitfield.get_set_ne _ hji]
    exact h

theorem CoreIndexStream.processed_skips (s : CoreIndexStream) (i : Nat)
    (h : s.processed i = true) : (s.pushEntry i).2 = none := by
  simp only [CoreIndexStream.pushEntry, CoreIndexStream.processed] at h ⊢
  simp [h]

theorem applyOp_streams_length (sys : System) (op : Op) :
    (applyOp sys op).streams.length = sys.streams.length := by
  cases op <;>
    · simp only [applyOp]
      split <;> try rfl
      all_goals first
        | simp
        | (split_ifs <;> simp)

theorem processed_applyOp (sys : System) (op : Op) (k i : Nat) (s : CoreIndexStream)
    (hk : sys.streams.get? k = some s) (h : s.processed i = true) :
    ∃ s', (applyOp sys op).streams.get? k = some s' ∧ s'.processed i = true := by
  have hklen : k < sys.streams.length := get?_some_lt hk
  cases op with
  | scan k' =>
    simp only [applyOp]
    cases hk' : sys.streams.get? k' with
    | none => exact ⟨s, hk, h⟩
    | some t =>
      dsimp only
      split_ifs with hlen
      · by_cases hkk : k' = k
        · subst hkk
          rw [hk] at hk'
          cases hk'
          exact ⟨_, List.get?_set_eq_of_lt _ hklen,
            CoreIndexStream.processed_pushEntry _ _ _ h⟩
        · exact ⟨s, by rw [List.get?_set_ne _ _ hkk]; exact hk, h⟩
      · exact ⟨s, hk, h⟩
  | downloadPush k' j =>
    simp only [applyOp]
    cases hk' : sys.streams.get? k' with
    | none => exact ⟨s, hk, h⟩
    | some t =>
      dsimp only
      split_ifs with hmem
      · by_cases hkk : k' = k
        · subst hkk
          rw [hk] at hk'
          cases hk'
          exact ⟨_, List.get?_set_eq_of_lt _ hklen,
            CoreIndexStream.processed_pushEntry _ _ _ h⟩
        · exact ⟨s, by rw [List.get?_set_ne _ _ hkk]; exact hk, h⟩
      · exact ⟨s, hk, h⟩
  | setIdx k' j =>
    simp only [applyOp]
    cases hk' : sys.streams.get? k' with
    | none => exact ⟨s, hk, h⟩
    | some t =>
      dsimp only
      split_ifs with hmem
      · by_cases hkk : k' = k
        · subst hkk
          rw [hk] at hk'
          cases hk'
          exact ⟨_, List.get?_set_eq_of_lt _ hklen,
            CoreIndexStream.processed_setIndexed _ _ _ h⟩
        · exact ⟨s, by rw [List.get?_set_ne _ _ hkk]; exact hk, h⟩
      · exact ⟨s, hk, h⟩
  | append k' n f =>
    simp only [applyOp]
    cases hk' : sys.streams.get? k' with
    | none => exact ⟨s, hk, h⟩
    | some t =>
      dsimp only
      by_cases hkk : k' = k
      · subst hkk
        rw [hk] at hk'
        cases hk'
        exact ⟨_, List.get?_set_eq_of_lt _ hklen, h⟩
      · exact ⟨s, by rw [List.get?_set_ne _ _ hkk]; exact hk, h⟩
  | download k' j blk =>
    simp only [applyOp]
    cases hk' : sys.streams.get? k' with
    | none => exact ⟨s, hk, h⟩
    | some t =>
      dsimp only
      by_cases hkk : k' = k
      · subst hkk
        rw [hk] at hk'
        cases hk'
        exact ⟨_, List.get?_set_eq_of_lt _ hklen, h⟩
      · exact ⟨s, by rw [List.get?_set_ne _ _ hkk]; exact hk, h⟩

/-- Claim C2: once `#pushEntry(i)` has pushed the entry for a block, the
in-progress bit for `i` is set, and from then on — across any sequence of
scan steps, download-set steps, `setIndexed` acknowledgements, appends and
downloads — either the in-progress bit (cleared only by `setIndexed`,
which sets the indexed bit in the same step) or the indexed bit stays set,
so every later `#pushEntry(i)` on the same stream returns "skipped". -/
theorem claim_C2 :
    (∀ (s : CoreIndexStream) (i : Nat) (e : Entry),
        (s.pushEntry i).2 = some e → ((s.pushEntry i).1).processed i = true)
    ∧ (∀ (s : CoreIndexStream) (i : Nat),
        s.processed i = true → (s.pushEntry i).2 = none)
    ∧ (∀ (sys : System) (k i : Nat) (s : CoreIndexStream),
        sys.streams.get? k = some s → s.processed i = true →
        ∀ ops : List Op, ∃ s',
          (applyOps sys ops).streams.get? k = some s'
          ∧ s'.processed i = true
          ∧ (s'.pushEntry i).2 = none) := by
  refine ⟨?_, CoreIndexStream.processed_skips, ?_⟩
  · intro s i e h
    simp only [CoreIndexStream.pushEntry] at h ⊢
    by_cases h1 : (s.indexedBitfield.get i || s.inProgressBitfield.get i) = true
    · rw [if_pos h1] at h
      cases h
    · rw [if_neg h1] at h ⊢
      cases hb : s.core.blocks i with
      | none => rw [hb] at h; cases h
      | some blk =>
        simp [CoreIndexStream.processed, Bitfield.get_set_self_true]
  · intro sys k i s hk h ops
    induction ops generalizing sys s with
    | nil => exact ⟨s, hk, h, CoreIndexStream.processed_skips s i h⟩
    | cons op rest ih =>
      obtain ⟨s', hs', hp'⟩ := processed_applyOp sys op k i s hk h
      exact ih (applyOp sys op) s' hs' hp'

/-- Witness for C2: after pushing block 0 on the sample stream, block 0 is
in progress and a repeated push is skipped. -/
theorem claim_C2_witness :
    CoreIndexStream.processed ((demoStream.pushEntry 0).1) 0 = true ∧
      (((demoStream.pushEntry 0).1).pushEntry 0).2 = none :=
  ⟨by decide, claim_C2.2.1 ((demoStream.pushEntry 0).1) 0 (by decide)⟩

/-! ## Counting and sum helpers for remaining (claims C3, C7) -/

theorem map_sum_eq_range_sum (l : List CoreIndexStream) (f : CoreIndexStream → Nat) :
    (l.map f).sum = ∑ k ∈ Finset.range l.length, ((l.get? k).elim 0 f) := by
  induction l with
  | nil => simp
  | cons a t ih =>
    rw [List.map_cons, List.sum_cons, ih]
    rw [List.length_cons, Finset.sum_range_succ']
    simp [List.get?]
    ring

theorem sum_countFor (pending : List (Nat × Nat)) (n : Nat)
    (h : ∀ e ∈ pending, e.1 < n) :
    ∑ k ∈ Finset.range n, countFor pending k = pending.length := by
  induction pending with
  | nil => simp [countFor]
  | cons e t ih =>
    have ht : ∀ x ∈ t, x.1 < n := fun x hx => h x (List.mem_cons_of_mem _ hx)
    have he : e.1 < n := h e (List.mem_cons_self _ _)
    have : ∀ k, countFor (e :: t) k = (if e.1 = k then 1 else 0) + countFor t k := by
      intro k
      simp only [countFor, List.countP_cons]
      by_cases hek : e.1 = k <;> simp [hek] <;> omega
    simp only [this]
    rw [Finset.sum_add_distrib, ih ht]
    have : (∑ k ∈ Finset.range n, if e.1 = k then 1 else 0) = 1 := by
      rw [Finset.sum_ite_eq]
      simp [Finset.mem_range.mpr he]
    simp [this]
    ring

theorem map_sum_set (l : List CoreIndexStream) (k : Nat) (a b : CoreIndexStream)
    (f : CoreIndexStream → Nat) (h : l.get? k = some a) :
    ((l.set k b).map f).sum + f a = (l.map f).sum + f b := by
  induction l generalizing k with
  | nil => cases h
  | cons x t ih =>
    cases k with
    | zero =>
      cases h
      simp [List.set]
      ring
    | succ k' =>
      simp only [List.get?] at h
      simp only [List.set, List.map_cons, List.sum_cons]
      have := ih k' h
      omega

/-! ## Pipeline invariant preservation -/

theorem CoreIndexStream.pushEntry_skip (s : CoreIndexStream) (i : Nat)
    (h : (s.pushEntry i).2 = none) : (s.pushEntry i).1 = s := by
  simp only [CoreIndexStream.pushEntry] at h ⊢
  split_ifs at h ⊢ with h1
  · rfl
  · cases hb : s.core.blocks i with
    | none => rfl
    | some blk => rw [hb] at h; cases h

theorem CoreIndexStream.pushEntry_push (s : CoreIndexStream) (i : Nat) (e : Entry)
    (h : (s.pushEntry i).2 = some e) :
    e.index = i
    ∧ s.inProgressBitfield.get i = false
    ∧ (s.pushEntry i).1.inProgress = s.inProgress + 1
    ∧ (s.pushEntry i).1.inProgressBitfield = s.inProgressBitfield.set i true
    ∧ (s.pushEntry i).1.index = s.index
    ∧ (s.pushEntry i).1.core = s.core
    ∧ (s.pushEntry i).1.downloaded = s.downloaded := by
  simp only [CoreIndexStream.pushEntry] at h ⊢
  by_cases h1 : (s.indexedBitfield.get i || s.inProgressBitfield.get i) = true
  · rw [if_pos h1] at h; cases h
  · rw [if_neg h1] at h ⊢
    cases hb : s.core.blocks i with
    | none => rw [hb] at h; cases h
    | some blk =>
      rw [hb] at h
      cases h
      simp only [Bool.or_eq_true] at h1
      push_neg at h1
      refine ⟨rfl, ?_, by simp, by simp, rfl, rfl, rfl⟩
      simpa using h1.2

theorem sysInv_set_same_counters (sys : System) (k : Nat) (s s₂ : CoreIndexStream)
    (hk : sys.streams.get? k = some s) (hinv : SysInv sys)
    (h1 : s₂.inProgress = s.inProgress)
    (h2 : s₂.inProgressBitfield = s.inProgressBitfield)
    (h3 : s₂.index ≤ s₂.core.length) :
    SysInv { streams := sys.streams.set k s₂, pending := sys.pending } := by
  have hklen : k < sys.streams.length := get?_some_lt hk
  refine ⟨?_, hinv.nodup, ?_, ?_⟩
  · intro k0 s0 h0
    by_cases hk0 : k = k0
    · subst hk0
      rw [List.get?_set_eq_of_lt _ hklen] at h0
      cases h0
      rw [h1]
      exact hinv.inflight k s hk
    · rw [List.get?_set_ne _ _ hk0] at h0
      exact hinv.inflight k0 s0 h0
  · intro e he
    obtain ⟨s1, hs1, hbit1⟩ := hinv.inprog e he
    by_cases hk0 : k = e.1
    · subst hk0
      rw [hk] at hs1
      cases hs1
      exact ⟨s₂, List.get?_set_eq_of_lt _ hklen, by rw [h2]; exact hbit1⟩
    · exact ⟨s1, by rw [List.get?_set_ne _ _ hk0]; exact hs1, hbit1⟩
  · intro k0 s0 h0
    by_cases hk0 : k = k0
    · subst hk0
      rw [List.get?_set_eq_of_lt _ hklen] at h0
      cases h0
      exact h3
    · rw [List.get?_set_ne _ _ hk0] at h0
      exact hinv.scanLe k0 s0 h0

theorem sysInv_after_push (sys : System) (k j : Nat) (s : CoreIndexStream)
    (hk : sys.streams.get? k = some s) (hinv : SysInv sys)
    (hbitF : s.inProgressBitfield.get j = false)
    (s₂ : CoreIndexStream)
    (h1 : s₂.inProgress = s.inProgress + 1)
    (h2 : s₂.inProgressBitfield = s.inProgressBitfield.set j true)
    (h3 : s₂.index ≤ s₂.core.length) :
    SysInv { streams := sys.streams.set k s₂, pending := sys.pending ++ [(k, j)] } := by
  have hklen : k < sys.streams.length := get?_some_lt hk
  have hnotmem : (k, j) ∉ sys.pending := by
    intro hmem
    obtain ⟨s1, hs1, hbit1⟩ := hinv.inprog (k, j) hmem
    rw [hk] at hs1
    cases hs1
    rw [hbitF] at hbit1
    cases hbit1
  have hcount : ∀ k0, countFor (sys.pending ++ [(k, j)]) k0 =
      countFor sys.pending k0 + (if k = k0 then 1 else 0) := by
    intro k0
    simp only [countFor, List.countP_append, List.countP_cons, List.countP_nil]
    by_cases hk0 : k = k0 <;> simp [hk0]
  refine ⟨?_, ?_, ?_, ?_⟩
  · intro k0 s0 h0
    by_cases hk0 : k = k0
    · subst hk0
      rw [List.get?_set_eq_of_lt _ hklen] at h0
      cases h0
      rw [h1, hcount, if_pos rfl, hinv.inflight k s hk]
    · rw [List.get?_set_ne _ _ hk0] at h0
      rw [hcount, if_neg hk0, hinv.inflight k0 s0 h0]
      omega
  · rw [List.nodup_append]
    exact ⟨hinv.nodup, List.nodup_singleton _, by simpa using hnotmem⟩
  · intro e0 he0
    rw [List.mem_append] at he0
    rcases he0 with he0 | he0
    · obtain ⟨s1, hs1, hbit1⟩ := hinv.inprog e0 he0
      by_cases hk0 : k = e0.1
      · subst hk0
        rw [hk] at hs1
        cases hs1
        refine ⟨s₂, List.get?_set_eq_of_lt _ hklen, ?_⟩
        rw [h2]
        have hne : e0.2 ≠ j := by
          intro hje
          exact hnotmem (by rw [← hje]; exact he0)
        rw [Bitfield.get_set_ne _ hne]
        exact hbit1
      · exact ⟨s1, by rw [List.get?_set_ne _ _ hk0]; exact hs1, hbit1⟩
    · rw [List.mem_singleton] at he0
      subst he0
      refine ⟨s₂, List.get?_set_eq_of_lt _ hklen, ?_⟩
      rw [h2]
      exact Bitfield.get_set_self_true _ _
  · intro k0 s0 h0
    by_cases hk0 : k = k0
    · subst hk0
      rw [List.get?_set_eq_of_lt _ hklen] at h0
      cases h0
      exact h3
    · rw [List.get?_set_ne _ _ hk0] at h0
      exact hinv.scanLe k0 s0 h0

theorem countFor_erase (pending : List (Nat × Nat)) (k i : Nat)
    (hmem : (k, i) ∈ pending) :
    ∀ k0, countFor pending k0 =
      (if k = k0 then 1 else 0) + countFor (pending.erase (k, i)) k0 := by
  intro k0
  induction pending with
  | nil => cases hmem
  | cons e t ih =>
    by_cases he : e = (k, i)
    · subst he
      rw [List.erase_cons_head]
      simp only [countFor, List.countP_cons]
      by_cases hk0 : k = k0 <;> simp [hk0] <;> omega
    · have hne : ¬(e == (k, i)) := by simpa using he
      rw [List.erase_cons_tail hne]
      have hmem' : (k, i) ∈ t := by
        rcases List.mem_cons.mp hmem with h | h
        · exact absurd h.symm he
        · exact h
      simp only [countFor, List.countP_cons] at ih ⊢
      have := ih hmem'
      omega

theorem sysInv_after_ack (sys : System) (k i : Nat) (s : CoreIndexStream)
    (hk : sys.streams.get? k = some s) (hinv : SysInv sys)
    (hmem : (k, i) ∈ sys.pending) :
    SysInv { streams := sys.streams.set k (s.setIndexed i),
             pending := sys.pending.erase (k, i) } := by
  have hklen : k < sys.streams.length := get?_some_lt hk
  have hcount := countFor_erase sys.pending k i hmem
  refine ⟨?_, hinv.nodup.erase _, ?_, ?_⟩
  · intro k0 s0 h0
    by_cases hk0 : k = k0
    · subst hk0
      rw [List.get?_set_eq_of_lt _ hklen] at h0
      cases h0
      have hbase := hinv.inflight k s hk
      have hck := hcount k
      rw [if_pos rfl] at hck
      simp only [CoreIndexStream.setIndexed]
      omega
    · rw [List.get?_set_ne _ _ hk0] at h0
      have hck := hcount k0
      rw [if_neg hk0] at hck
      rw [hinv.inflight k0 s0 h0]
      show countFor sys.pending k0 = countFor (sys.pending.erase (k, i)) k0
      omega
  · intro e0 he0
    have he0p : e0 ∈ sys.pending := List.mem_of_mem_erase he0
    have hne : e0 ≠ (k, i) := (hinv.nodup.mem_erase_iff.mp he0).1
    obtain ⟨s1, hs1, hbit1⟩ := hinv.inprog e0 he0p
    by_cases hk0 : k = e0.1
    · subst hk0
      rw [hk] at hs1
      cases hs1
      refine ⟨_, List.get?_set_eq_of_lt _ hklen, ?_⟩
      simp only [CoreIndexStream.setIndexed]
      have hne2 : e0.2 ≠ i := by
        intro h2
        exact hne (by ext <;> simp [h2])
      rw [Bitfield.get_set_ne _ hne2]
      exact hbit1
    · exact ⟨s1, by rw [List.get?_set_ne _ _ hk0]; exact hs1, hbit1⟩
  · intro k0 s0 h0
    by_cases hk0 : k = k0
    · subst hk0
      rw [List.get?_set_eq_of_lt _ hklen] at h0
      cases h0
      exact hinv.scanLe k s hk
    · rw [List.get?_set_ne _ _ hk0] at h0
      exact hinv.scanLe k0 s0 h0

theorem sysInv_applyOp (sys : System) (op : Op) (hinv : SysInv sys) :
    SysInv (applyOp sys op) := by
  cases op with
  | scan k =>
    simp only [applyOp]
    cases hk : sys.streams.get? k with
    | none => exact hinv
    | some s =>
      dsimp only
      split_ifs with hlen
      · cases hpush : (s.pushEntry s.index).2 with
        | none =>
          rw [CoreIndexStream.pushEntry_skip s s.index hpush]
          try dsimp only
          exact sysInv_set_same_counters sys k s _ hk hinv rfl rfl (by dsimp only; omega)
        | some e =>
          obtain ⟨hidx, hbitF, h1, h2, h3, h4, _⟩ :=
            CoreIndexStream.pushEntry_push s s.index e hpush
          dsimp only
          rw [hidx]
          refine sysInv_after_push sys k s.index s hk hinv hbitF _ ?_ ?_ ?_
          · dsimp only
            rw [h1]
          · dsimp only
            rw [h2]
          · dsimp only
            rw [h3, h4]
            omega
      · exact hinv
  | downloadPush k i =>
    simp only [applyOp]
    cases hk : sys.streams.get? k with
    | none => exact hinv
    | some s =>
      dsimp only
      split_ifs with hmem
      · cases hpush : (CoreIndexStream.pushEntry { s with downloaded := s.downloaded.erase i } i).2
          with
        | none =>
          rw [CoreIndexStream.pushEntry_skip _ i hpush]
          try dsimp only
          refine sysInv_set_same_counters sys k s _ hk hinv rfl rfl ?_
          dsimp only
          exact hinv.scanLe k s hk
        | some e =>
          obtain ⟨hidx, hbitF, h1, h2, h3, h4, _⟩ :=
            CoreIndexStream.pushEntry_push { s with downloaded := s.downloaded.erase i } i e hpush
          dsimp only
          rw [hidx]
          refine sysInv_after_push sys k i s hk hinv hbitF _ ?_ ?_ ?_
          · rw [h1]
          · rw [h2]
          · rw [h3]
            have := hinv.scanLe k s hk
            rw [h4]
            exact this
      · exact hinv
  | setIdx k i =>
    simp only [applyOp]
    cases hk : sys.streams.get? k with
    | none => exact hinv
    | some s =>
      dsimp only
      split_ifs with hmem
      · exact sysInv_after_ack sys k i s hk hinv hmem
      · exact hinv
  | append k n f =>
    simp only [applyOp]
    cases hk : sys.streams.get? k with
    | none => exact hinv
    | some s =>
      dsimp only
      refine sysInv_set_same_counters sys k s _ hk hinv rfl rfl ?_
      dsimp only
      have := hinv.scanLe k s hk
      omega
  | download k i blk =>
    simp only [applyOp]
    cases hk : sys.streams.get? k with
    | none => exact hinv
    | some s =>
      dsimp only
      refine sysInv_set_same_counters sys k s _ hk hinv rfl rfl ?_
      dsimp only
      exact hinv.scanLe k s hk

theorem sysInv_init (cores : List (Core × Bitfield)) :
    SysInv { streams := cores.map (fun cb => CoreIndexStream.fresh cb.1 cb.2), pending := [] } := by
  refine ⟨?_, List.nodup_nil, ?_, ?_⟩
  · intro k s h
    rw [List.get?_map] at h
    cases hc : cores.get? k with
    | none => rw [hc] at h; cases h
    | some cb =>
      rw [hc] at h
      cases h
      rfl
  · intro e he
    cases he
  · intro k s h
    rw [List.get?_map] at h
    cases hc : cores.get? k with
    | none => rw [hc] at h; cases h
    | some cb =>
      rw [hc] at h
      cases h
      exact Nat.zero_le _

theorem pending_length_le_totalRemaining (sys : System) (hinv : SysInv sys) :
    sys.pending.length ≤ totalRemaining sys := by
  have hlt : ∀ e ∈ sys.pending, e.1 < sys.streams.length := by
    intro e he
    obtain ⟨s1, hs1, _⟩ := hinv.inprog e he
    exact get?_some_lt hs1
  rw [← sum_countFor sys.pending sys.streams.length hlt]
  rw [totalRemaining, map_sum_eq_range_sum]
  refine Finset.sum_le_sum ?_
  intro k hkr
  rw [Finset.mem_range] at hkr
  obtain ⟨s, hs⟩ : ∃ s, sys.streams.get? k = some s := by
    rw [List.get?_eq_get hkr]
    exact ⟨_, rfl⟩
  rw [hs, ← hinv.inflight k s hs]
  simp only [Option.elim, CoreIndexStream.remaining]
  omega

theorem applyOp_setIdx_remaining (sys : System) (k i : Nat) (s : CoreIndexStream)
    (hk : sys.streams.get? k = some s) (hinv : SysInv sys)
    (hmem : (k, i) ∈ sys.pending) :
    totalRemaining (applyOp sys (.setIdx k i)) + 1 = totalRemaining sys := by
  simp only [applyOp]
  rw [hk]
  dsimp only
  rw [if_pos hmem]
  have hsum := map_sum_set sys.streams k s (s.setIndexed i) CoreIndexStream.remaining hk
  have hip : s.inProgress = countFor sys.pending k := hinv.inflight k s hk
  have hge1 : 1 ≤ countFor sys.pending k := by
    have := countFor_erase sys.pending k i hmem k
    rw [if_pos rfl] at this
    omega
  have hrem : (s.setIndexed i).remaining + 1 = s.remaining := by
    simp only [CoreIndexStream.setIndexed, CoreIndexStream.remaining]
    omega
  simp only [totalRemaining]
  omega

theorem applyOp_setIdx_pending (sys : System) (k i : Nat) (s : CoreIndexStream)
    (hk : sys.streams.get? k = some s) (hmem : (k, i) ∈ sys.pending) :
    (applyOp sys (.setIdx k i)).pending = sys.pending.erase (k, i) := by
  simp only [applyOp]
  rw [hk]
  dsimp only
  rw [if_pos hmem]

theorem ackAll_remaining (sys : System) (batch : List (Nat × Nat)) (hinv : SysInv sys)
    (hnodup : batch.Nodup) (hsub : ∀ e ∈ batch, e ∈ sys.pending) :
    totalRemaining (batch.foldl (fun sy e => applyOp sy (.setIdx e.1 e.2)) sys)
      + batch.length = totalRemaining sys := by
  induction batch generalizing sys with
  | nil => simp
  | cons e rest ih =>
    rcases e with ⟨ek, ei⟩
    have hmem : (ek, ei) ∈ sys.pending := hsub (ek, ei) (List.mem_cons_self _ _)
    obtain ⟨s, hs, _⟩ := hinv.inprog (ek, ei) hmem
    have hrem1 := applyOp_setIdx_remaining sys ek ei s hs hinv hmem
    have hpend1 := applyOp_setIdx_pending sys ek ei s hs hmem
    have hinv1 : SysInv (applyOp sys (.setIdx ek ei)) := sysInv_applyOp sys _ hinv
    have hnd := List.nodup_cons.mp hnodup
    have hsub1 : ∀ x ∈ rest, x ∈ (applyOp sys (.setIdx ek ei)).pending := by
      intro x hx
      rw [hpend1]
      have hxp : x ∈ sys.pending := hsub x (List.mem_cons_of_mem _ hx)
      have hxe : x ≠ (ek, ei) := by
        intro hq
        exact hnd.1 (hq ▸ hx)
      exact (List.mem_erase_of_ne hxe).mpr hxp
    have hind := ih (applyOp sys (.setIdx ek ei)) hinv1 hnd.2 hsub1
    simp only [List.foldl_cons] at hind ⊢
    simp only [List.length_cons]
    omega

theorem multiRemaining_eq_sum (streams : List CoreIndexStream) :
    multiRemaining streams = (streams.map CoreIndexStream.remaining).sum := by
  suffices h : ∀ acc, streams.foldl (fun acc s => acc + s.remaining) acc
      = acc + (streams.map CoreIndexStream.remaining).sum by
    simpa [multiRemaining] using h 0
  induction streams with
  | nil => intro acc; simp
  | cons s t ih =>
    intro acc
    simp only [List.foldl_cons, List.map_cons, List.sum_cons, ih]
    omega

/-- Claim C3: while a batch is pending (its entries delivered but not yet
acknowledged, so still in the pipeline's pending multiset), `remaining` is
at least the batch size; dequeuing alone never shrinks it — of all the
pipeline operations, only a `setIndexed` acknowledgement of one of the
batch's own entries can remove it from the pending set — and after
`setIndexed` has run for every entry of the batch, `remaining` has dropped
by exactly the batch length, hence is strictly below any value observed
before for a non-empty batch (and, being a `Nat`, is ≥ 0). -/
theorem claim_C3 :
    ∀ (sys : System) (batch : List (Nat × Nat)),
      SysInv sys → batch.Nodup → (∀ e ∈ batch, e ∈ sys.pending) →
      batch.length ≤ totalRemaining sys
      ∧ totalRemaining (batch.foldl (fun sy e => applyOp sy (.setIdx e.1 e.2)) sys)
          + batch.length = totalRemaining sys
      ∧ (batch ≠ [] →
          totalRemaining (batch.foldl (fun sy e => applyOp sy (.setIdx e.1 e.2)) sys)
            < totalRemaining sys)
      ∧ ∀ op : Op, (∀ k i, op = .setIdx k i → (k, i) ∉ batch) →
          ∀ e ∈ batch, e ∈ (applyOp sys op).pending := by
  intro sys batch hinv hnodup hsub
  have hfold := ackAll_remaining sys batch hinv hnodup hsub
  refine ⟨?_, hfold, ?_, ?_⟩
  · calc batch.length = batch.toFinset.card := (List.toFinset_card_of_nodup hnodup).symm
      _ ≤ sys.pending.toFinset.card := by
          refine Finset.card_le_card ?_
          intro x hx
          rw [List.mem_toFinset] at hx ⊢
          exact hsub x hx
      _ ≤ sys.pending.length := List.toFinset_card_le sys.pending
      _ ≤ totalRemaining sys := pending_length_le_totalRemaining sys hinv
  · intro hne
    have : 1 ≤ batch.length := by
      cases batch with
      | nil => exact absurd rfl hne
      | cons a t => simp
    omega
  · intro op hop e he
    have hep : e ∈ sys.pending := hsub e he
    cases op with
    | scan k =>
      simp only [applyOp]
      cases hk : sys.streams.get? k with
      | none => exact hep
      | some s =>
        dsimp only
        split_ifs with hlen
        · cases hpush : (s.pushEntry s.index).2 with
          | none => exact hep
          | some e0 => exact List.mem_append_left _ hep
        · exact hep
    | downloadPush k i =>
      simp only [applyOp]
      cases hk : sys.streams.get? k with
      | none => exact hep
      | some s =>
        dsimp only
        split_ifs with hmem
        · cases hpush :
              (CoreIndexStream.pushEntry { s with downloaded := s.downloaded.erase i } i).2 with
          | none => exact hep
          | some e0 => exact List.mem_append_left _ hep
        · exact hep
    | setIdx k i =>
      simp only [applyOp]
      cases hk : sys.streams.get? k with
      | none => exact hep
      | some s =>
        dsimp only
        split_ifs with hmem
        · have hne : e ≠ (k, i) := by
            intro hq
            exact hop k i rfl (hq ▸ he)
          exact (List.mem_erase_of_ne hne).mpr hep
        · exact hep
    | append k n f =>
      simp only [applyOp]
      cases hk : sys.streams.get? k with
      | none => exact hep
      | some s => exact hep
    | download k i blk =>
      simp only [applyOp]
      cases hk : sys.streams.get? k with
      | none => exact hep
      | some s => exact hep

/-- Witness for C3: a one-entry batch pending on the sample system after a
push of block 0. -/
theorem claim_C3_witness :
    SysInv (applyOp demoSystem (.scan 0))
    ∧ [((0 : Nat), (0 : Nat))].Nodup
    ∧ (∀ e ∈ [((0 : Nat), (0 : Nat))], e ∈ (applyOp demoSystem (.scan 0)).pending)
    ∧ 1 ≤ totalRemaining (applyOp demoSystem (.scan 0)) := by
  have hinv0 : SysInv demoSystem := by
    refine ⟨?_, List.nodup_nil, ?_, ?_⟩
    · intro k s h
      cases k with
      | zero => cases h; rfl
      | succ k' => cases h
    · intro e he
      cases he
    · intro k s h
      cases k with
      | zero => cases h; decide
      | succ k' => cases h
  have hinv1 : SysInv (applyOp demoSystem (.scan 0)) := sysInv_applyOp _ _ hinv0
  have hmem : ∀ e ∈ [((0 : Nat), (0 : Nat))], e ∈ (applyOp demoSystem (.scan 0)).pending := by
    intro e he
    rw [List.mem_singleton] at he
    subst he
    decide
  exact ⟨hinv1, List.nodup_singleton _, hmem,
    le_trans (by decide)
      ((claim_C3 (applyOp demoSystem (.scan 0)) [(0, 0)] hinv1
        (List.nodup_singleton _) hmem).1)⟩

/-- Claim C7: on any state satisfying the pipeline invariant (in
particular, the scan position never passes the core length), a stream's
`remaining` equals `core.length − nextScan + |downloadedSet| +
inFlightCount` read as integer arithmetic, and the fan-in's `remaining`
(a running sum over its streams, as the source loops) equals the sum of
the inner streams' `remaining`. -/
theorem claim_C7 :
    (∀ sys : System, SysInv sys →
      ∀ k s, sys.streams.get? k = some s →
        (s.remaining : Int) =
          (s.core.length : Int) - (s.index : Int)
            + (s.downloaded.length : Int) + (s.inProgress : Int))
    ∧ ∀ streams : List CoreIndexStream,
        multiRemaining streams = (streams.map CoreIndexStream.remaining).sum := by
  refine ⟨?_, multiRemaining_eq_sum⟩
  intro sys hinv k s hk
  have hle : s.index ≤ s.core.length := hinv.scanLe k s hk
  simp only [CoreIndexStream.remaining]
  omega

/-- Witness for C7 at the sample one-stream system. -/
theorem claim_C7_witness :
    SysInv demoSystem
    ∧ (demoStream.remaining : Int) =
        (demoStream.core.length : Int) - (demoStream.index : Int)
          + (demoStream.downloaded.length : Int) + (demoStream.inProgress : Int) := by
  have hinv0 : SysInv demoSystem := by
    refine ⟨?_, List.nodup_nil, ?_, ?_⟩
    · intro k s h
      cases k with
      | zero => cases h; rfl
      | succ k' => cases h
    · intro e he
      cases he
    · intro k s h
      cases k with
      | zero => cases h; decide
      | succ k' => cases h
  exact ⟨hinv0, claim_C7.1 demoSystem hinv0 0 demoStream rfl⟩

/-- Claim C8: on an inner `indexing` event, the fan-in emits an aggregate
`indexing` event iff its cached drained flag was true, flipping it to
false; on an inner `drained` event — which, per the stream read loop, a
stream only emits while its own flag was false, setting it true in the
same step — the fan-in recomputes whether every inner stream is drained
and emits an aggregate `drained` event iff that recomputed value is true
(the cached flag being necessarily false then, by the cache invariant
`cached = true → all flags true`), storing the recomputed value. -/
theorem claim_C8 :
    ∀ (m : MultiAgg),
      (m.drained = true → allDrained m.flags = true) →
      ∀ k : Nat,
        (((m.applyEvent (.indexing k)).2 = some .indexing ↔ m.drained = true)
          ∧ (m.applyEvent (.indexing k)).1.drained = false)
        ∧ ∀ hk : k < m.flags.length, m.flags.get ⟨k, hk⟩ = false →
            (((m.applyEvent (.drainedEv k)).2 = some .drainedEv ↔
                (allDrained (m.flags.set k true) = true ∧ m.drained = false))
              ∧ (m.applyEvent (.drainedEv k)).1.drained = allDrained (m.flags.set k true)) := by
  intro m hinv k
  constructor
  · simp only [MultiAgg.applyEvent, MultiAgg.handleIndexing]
    cases hd : m.drained with
    | false => simp
    | true => simp
  · intro hk hflag
    have hdr : m.drained = false := by
      cases hd : m.drained with
      | false => rfl
      | true =>
        have hall := hinv hd
        rw [allDrained, List.all_eq_true] at hall
        have := hall (m.flags.get ⟨k, hk⟩) (List.get_mem _ _ _)
        rw [hflag] at this
        cases this
    simp only [MultiAgg.applyEvent, MultiAgg.handleDrained, hdr]
    cases hall : allDrained ((m.flags.set k true)) with
    | false => simp [hall]
    | true => simp [hall]

/-- Witness for C8: one inner stream, not drained, cache false; its
`drained` event makes the recomputed value true and the fan-in emits. -/
theorem claim_C8_witness :
    ((⟨[false], false⟩ : MultiAgg).drained = true →
        allDrained (⟨[false], false⟩ : MultiAgg).flags = true)
    ∧ ((⟨[false], false⟩ : MultiAgg).applyEvent (.drainedEv 0)).2 = some .drainedEv := by
  have hinv : (⟨[false], false⟩ : MultiAgg).drained = true →
      allDrained (⟨[false], false⟩ : MultiAgg).flags = true := by
    intro h
    cases h
  have hk : (0 : Nat) < ([false] : List Bool).length := by decide
  have h := (claim_C8 ⟨[false], false⟩ hinv 0).2 hk rfl
  exact ⟨hinv, h.1.mpr (by decide)⟩

/-! ## Bitfield flush/open round trip (claim C5) -/

theorem wordOfBytes_digits (w : Nat) :
    wordOfBytes (w % 256) (w / 256 % 256) (w / 65536 % 256) (w / 16777216 % 256)
      = w % 4294967296 := by
  simp only [wordOfBytes]
  omega

theorem pageBuf_byte_at (words : Nat → Nat) (w r : Nat) (hr : r < 4) :
    (Bitfield.pageBuf words).byte (4 * w + r) = words w / 256 ^ r % 256 := by
  simp only [Bitfield.pageBuf]
  have h1 : (4 * w + r) / 4 = w := by omega
  have h2 : (4 * w + r) % 4 = r := by omega
  rw [h1, h2]

theorem flushWrites_cons (b : Bitfield) (q : Nat) (rest : List Nat) (fs : FileStore) :
    b.flushWrites (q :: rest) fs =
      b.flushWrites rest
        (match b.pages q with
         | some pg => fs.write (q * 4096) (Bitfield.pageBuf pg.words)
         | none => fs) := by
  simp only [Bitfield.flushWrites, List.foldl_cons]

theorem flushWrites_size_ge (b : Bitfield) (idxs : List Nat) (fs : FileStore) :
    fs.size ≤ (b.flushWrites idxs fs).size := by
  induction idxs generalizing fs with
  | nil => exact le_refl _
  | cons q rest ih =>
    rw [flushWrites_cons]
    cases hq : b.pages q with
    | none => exact ih fs
    | some pg =>
      refine le_trans ?_ (ih (fs.write (q * 4096) (Bitfield.pageBuf pg.words)))
      simp [FileStore.write]

theorem flushWrites_size_page (b : Bitfield) (idxs : List Nat) (fs : FileStore)
    (p : Nat) (hp : p ∈ idxs) (pg : FixedBitfield) (hpg : b.pages p = some pg) :
    p * 4096 + 4096 ≤ (b.flushWrites idxs fs).size := by
  induction idxs generalizing fs with
  | nil => cases hp
  | cons q rest ih =>
    rw [flushWrites_cons]
    rcases List.mem_cons.mp hp with hq | hrest
    · subst hq
      rw [hpg]
      refine le_trans ?_ (flushWrites_size_ge b rest _)
      simp [FileStore.write, Bitfield.pageBuf]
    · cases hq : b.pages q with
      | none => exact ih fs hrest
      | some pg' => exact ih _ hrest

theorem flushWrites_byte_old (b : Bitfield) (idxs : List Nat) (fs : FileStore)
    (o : Nat) (ho : o < fs.size) (hnot : o / 4096 ∉ idxs) :
    (b.flushWrites idxs fs).byte o = fs.byte o := by
  induction idxs generalizing fs with
  | nil => rfl
  | cons q rest ih =>
    have hq4 : o / 4096 ≠ q := fun h => hnot (h ▸ List.mem_cons_self _ _)
    have hnr : o / 4096 ∉ rest := fun h => hnot (List.mem_cons_of_mem _ h)
    rw [flushWrites_cons]
    cases hq : b.pages q with
    | none => exact ih fs ho hnr
    | some pg =>
      have hrange : ¬(q * 4096 ≤ o ∧ o < q * 4096 + 4096) := by omega
      have hb : (fs.write (q * 4096) (Bitfield.pageBuf pg.words)).byte o = fs.byte o := by
        simp only [FileStore.write, Bitfield.pageBuf]
        rw [if_neg hrange, if_pos ho]
      have hs : o < (fs.write (q * 4096) (Bitfield.pageBuf pg.words)).size := by
        simp only [FileStore.write]
        omega
      rw [ih _ hs hnr, hb]

theorem flushWrites_byte_mem (b : Bitfield) (idxs : List Nat) (fs : FileStore)
    (o : Nat) (pg : FixedBitfield)
    (hmem : o / 4096 ∈ idxs) (hpg : b.pages (o / 4096) = some pg) :
    (b.flushWrites idxs fs).byte o = (Bitfield.pageBuf pg.words).byte (o % 4096) := by
  induction idxs generalizing fs with
  | nil => cases hmem
  | cons q rest ih =>
    rw [flushWrites_cons]
    by_cases hq4 : o / 4096 = q
    · subst hq4
      rw [hpg]
      by_cases hmr : o / 4096 ∈ rest
      · exact ih _ hmr
      · have hrange : o / 4096 * 4096 ≤ o ∧ o < o / 4096 * 4096 + 4096 := by omega
        have hs : o < (fs.write (o / 4096 * 4096) (Bitfield.pageBuf pg.words)).size := by
          simp only [FileStore.write, Bitfield.pageBuf]
          omega
        rw [flushWrites_byte_old b rest
          (fs.write (o / 4096 * 4096) (Bitfield.pageBuf pg.words)) o hs hmr]
        simp only [FileStore.write, Bitfield.pageBuf]
        rw [if_pos (by simpa using hrange)]
        have hsub : o - o / 4096 * 4096 = o % 4096 := by omega
        rw [hsub]
    · have hmr : o / 4096 ∈ rest := by
        rcases List.mem_cons.mp hmem with h | h
        · exact absurd h hq4
        · exact h
      cases hq : b.pages q with
      | none => exact ih fs hmr
      | some pg' => exact ih _ hmr

theorem FixedBitfield.setWords_of_not_changed (p : FixedBitfield) (j : Nat) (v : Bool)
    (h : (p.setWords j v).2 = false) : (p.setWords j v).1 = p.words := by
  simp only [FixedBitfield.setWords] at h ⊢
  split_ifs at h ⊢ <;> simp_all

theorem set_cleanInv (b : Bitfield) (fs : FileStore) (i : Nat) (v : Bool)
    (h : cleanInv b fs) : cleanInv (b.set i v) fs := by
  intro p pg hpg hdirty w hw bit hbit htb
  revert hpg
  simp only [Bitfield.set]
  cases hp : b.pages ((i - i % 32768) / 32768) with
  | none =>
    cases v with
    | false =>
      intro hpg
      exact h p pg hpg hdirty w hw bit hbit htb
    | true =>
      dsimp only
      split
      · rename_i heq
        simp at heq
      · rename_i p0 heq
        simp at heq
        subst heq
        split
        · rename_i hcond
          dsimp only
          by_cases hpP : p = (i - i % 32768) / 32768
          · subst hpP
            rw [if_pos rfl]
            intro hpg
            cases hpg
            simp only at hdirty htb
            have hch : ((FixedBitfield.mk (fun _ => 0) false).setWords (i % 32768) true).2
                = false := by
              rcases hcond with hc | hc
              · exact hc
              · simp at hc
            rw [FixedBitfield.setWords_of_not_changed _ _ _ hch] at htb
            simp at htb
          · rw [if_neg hpP]
            intro hpg
            exact h p pg hpg hdirty w hw bit hbit htb
        · dsimp only
          by_cases hpP : p = (i - i % 32768) / 32768
          · subst hpP
            rw [if_pos rfl]
            intro hpg
            cases hpg
            simp at hdirty
          · rw [if_neg hpP]
            intro hpg
            exact h p pg hpg hdirty w hw bit hbit htb
  | some p0 =>
    dsimp only
    split
    · rename_i hcond
      dsimp only
      by_cases hpP : p = (i - i % 32768) / 32768
      · subst hpP
        rw [if_pos rfl]
        intro hpg
        cases hpg
        simp only at hdirty htb
        have hch : (p0.setWords (i % 32768) v).2 = false := by
          rcases hcond with hc | hc
          · exact hc
          · rw [hc] at hdirty
            cases hdirty
        rw [FixedBitfield.setWords_of_not_changed _ _ _ hch] at htb
        exact h _ p0 hp hdirty w hw bit hbit htb
      · rw [if_neg hpP]
        intro hpg
        exact h p pg hpg hdirty w hw bit hbit htb
    · dsimp only
      by_cases hpP : p = (i - i % 32768) / 32768
      · subst hpP
        rw [if_pos rfl]
        intro hpg
        cases hpg
        simp at hdirty
      · rw [if_neg hpP]
        intro hpg
        exact h p pg hpg hdirty w hw bit hbit htb

theorem set_dirtyInv (b : Bitfield) (i : Nat) (v : Bool)
    (h : dirtyInv b) : dirtyInv (b.set i v) := by
  intro idxs hu p pg hpg hd
  revert hu hpg
  simp only [Bitfield.set]
  cases hp : b.pages ((i - i % 32768) / 32768) with
  | none =>
    cases v with
    | false =>
      intro hu hpg
      exact h idxs hu p pg hpg hd
    | true =>
      dsimp only
      split
      · rename_i heq
        simp at heq
      · rename_i p0 heq
        simp at heq
        subst heq
        split
        · dsimp only
          intro hu
          by_cases hpP : p = (i - i % 32768) / 32768
          · subst hpP
            rw [if_pos rfl]
            intro hpg
            cases hpg
            simp at hd
          · rw [if_neg hpP]
            intro hpg
            exact h idxs hu p pg hpg hd
        · dsimp only
          intro hu
          obtain ⟨l, hl, hcons⟩ : ∃ l, b.unflushed = some l
              ∧ idxs = l ++ [(i - i % 32768) / 32768] := by
            cases hbu : b.unflushed with
            | none => rw [hbu] at hu; cases hu
            | some l =>
              rw [hbu] at hu
              simp at hu
              exact ⟨l, rfl, hu.symm⟩
          by_cases hpP : p = (i - i % 32768) / 32768
          · subst hpP
            rw [hcons]
            intro hpg
            exact List.mem_append_right _ (List.mem_singleton_self _)
          · rw [if_neg hpP]
            intro hpg
            rw [hcons]
            exact List.mem_append_left _ (h l hl p pg hpg hd)
  | some p0 =>
    dsimp only
    split
    · dsimp only
      intro hu
      by_cases hpP : p = (i - i % 32768) / 32768
      · subst hpP
        rw [if_pos rfl]
        intro hpg
        cases hpg
        simp only at hd
        exact h idxs hu _ p0 hp hd
      · rw [if_neg hpP]
        intro hpg
        exact h idxs hu p pg hpg hd
    · dsimp only
      intro hu
      obtain ⟨l, hl, hcons⟩ : ∃ l, b.unflushed = some l
          ∧ idxs = l ++ [(i - i % 32768) / 32768] := by
        cases hbu : b.unflushed with
        | none => rw [hbu] at hu; cases hu
        | some l =>
          rw [hbu] at hu
          simp at hu
          exact ⟨l, rfl, hu.symm⟩
      by_cases hpP : p = (i - i % 32768) / 32768
      · subst hpP
        rw [hcons]
        intro hpg
        exact List.mem_append_right _ (List.mem_singleton_self _)
      · rw [if_neg hpP]
        intro hpg
        rw [hcons]
        exact List.mem_append_left _ (h l hl p pg hpg hd)

theorem make_none_words (p pg : _) (h : (Bitfield.make true none).pages p = some pg) :
    pg.dirty = false ∧ ∀ w, pg.words w = 0 := by
  simp only [Bitfield.make] at h
  split at h
  · cases h
    refine ⟨rfl, ?_⟩
    intro w
    dsimp only
    split <;> rfl
  · cases h

theorem openStorage_cleanInv (fs : FileStore) (bf : Bitfield)
    (h : Bitfield.openStorage fs.toStorage = .ok bf) :
    cleanInv bf fs ∧ dirtyInv bf ∧ bf.unflushed = some [] := by
  simp only [Bitfield.openStorage, FileStore.toStorage] at h
  by_cases hz : fs.size - fs.size % 4 = 0
  · rw [if_pos hz] at h
    cases h
    refine ⟨?_, ?_, rfl⟩
    · intro p pg hpg hdirty w hw bit hbit htb
      obtain ⟨_, hzero⟩ := make_none_words p pg hpg
      rw [hzero w] at htb
      simp at htb
    · intro idxs hu p pg hpg hd
      obtain ⟨hdf, _⟩ := make_none_words p pg hpg
      rw [hdf] at hd
      cases hd
  · rw [if_neg hz] at h
    have hle : 0 + (fs.size - fs.size % 4) ≤ fs.size := by omega
    rw [if_pos hle] at h
    cases h
    have h4 : 4 ≤ fs.size - fs.size % 4 := by omega
    refine ⟨?_, ?_, rfl⟩
    · intro p pg hpg hdirty w hw bit hbit htb
      simp only [Bitfield.make] at hpg
      rw [if_pos h4] at hpg
      split at hpg
      · cases hpg
        simp only at htb
        by_cases hguard : w < 1024 ∧ p * 1024 + w < (fs.size - fs.size % 4) / 4
        · rw [if_pos hguard] at htb
          constructor
          · omega
          · have hcast : wordOfBytes (fs.byte (0 + 4 * (p * 1024 + w)))
                (fs.byte (0 + (4 * (p * 1024 + w) + 1)))
                (fs.byte (0 + (4 * (p * 1024 + w) + 2)))
                (fs.byte (0 + (4 * (p * 1024 + w) + 3)))
                = wordAt fs (p * 1024 + w) := by
              simp [wordAt]
            rw [hcast] at htb
            exact htb
        · rw [if_neg hguard] at htb
          simp at htb
      · cases hpg
    · intro idxs hu p pg hpg hd
      simp only [Bitfield.make] at hpg
      rw [if_pos h4] at hpg
      split at hpg
      · cases hpg
        simp at hd
      · cases hpg

theorem flushWrites_wordAt (b : Bitfield) (idxs : List Nat) (fs : FileStore)
    (p w : Nat) (hw : w < 1024) (pg : FixedBitfield)
    (hpg : b.pages p = some pg) (hmem : p ∈ idxs) :
    wordAt (b.flushWrites idxs fs) (p * 1024 + w) = pg.words w % 4294967296 := by
  have hbyte : ∀ r, r < 4 →
      (b.flushWrites idxs fs).byte (4 * (p * 1024 + w) + r) = pg.words w / 256 ^ r % 256 := by
    intro r hr
    have hdiv : (4 * (p * 1024 + w) + r) / 4096 = p := by omega
    have hmod : (4 * (p * 1024 + w) + r) % 4096 = 4 * w + r := by omega
    have hm : (4 * (p * 1024 + w) + r) / 4096 ∈ idxs := by rw [hdiv]; exact hmem
    have hp' : b.pages ((4 * (p * 1024 + w) + r) / 4096) = some pg := by
      rw [hdiv]; exact hpg
    rw [flushWrites_byte_mem b idxs fs _ pg hm hp', hmod, pageBuf_byte_at _ _ _ hr]
  have h0 := hbyte 0 (by norm_num)
  have h1 := hbyte 1 (by norm_num)
  have h2 := hbyte 2 (by norm_num)
  have h3 := hbyte 3 (by norm_num)
  simp only [Nat.add_zero, pow_zero, Nat.div_one, pow_one] at h0 h1 h2 h3
  have e2 : (256 : Nat) ^ 2 = 65536 := by norm_num
  have e3 : (256 : Nat) ^ 3 = 16777216 := by norm_num
  rw [e2] at h2
  rw [e3] at h3
  simp only [wordAt]
  rw [h0, h1, h2, h3]
  exact wordOfBytes_digits _

theorem flush_clean (b : Bitfield) (fs : FileStore) (idxs : List Nat)
    (hu : b.unflushed = some idxs) (hclean : cleanInv b fs) (hdirty : dirtyInv b) :
    (∀ p pg, ((b.flush fs).1).pages p = some pg → pg.dirty = false)
    ∧ cleanInv (b.flush fs).1 (b.flush fs).2 := by
  simp only [Bitfield.flush, hu]
  by_cases hlen : idxs.length = 0
  · rw [if_pos hlen]
    have hempty : idxs = [] := List.length_eq_zero.mp hlen
    subst hempty
    constructor
    · intro p pg hpg
      by_cases hd : pg.dirty = true
      · exact absurd (hdirty [] hu p pg hpg hd) (List.not_mem_nil _)
      · simpa using hd
    · exact hclean
  · rw [if_neg hlen]
    constructor
    · intro p pg hpg
      dsimp only at hpg
      cases hp : b.pages p with
      | none => rw [hp] at hpg; cases hpg
      | some p0 =>
        rw [hp] at hpg
        dsimp only at hpg
        cases hpg
        dsimp only
        by_cases hpm : p ∈ idxs
        · rw [if_pos hpm]
        · rw [if_neg hpm]
          by_cases hpd : p0.dirty = true
          · exact absurd (hdirty idxs hu p p0 hp hpd) hpm
          · simpa using hpd
    · intro p pg hpg hdclean w hw bit hbit htb
      dsimp only at hpg
      cases hp : b.pages p with
      | none => rw [hp] at hpg; cases hpg
      | some p0 =>
        rw [hp] at hpg
        dsimp only at hpg
        cases hpg
        dsimp only at htb
        by_cases hpm : p ∈ idxs
        · have hsize := flushWrites_size_page b idxs fs p hpm p0 hp
          constructor
          · show p * 1024 + w < (b.flushWrites idxs fs).size / 4
            omega
          · show Nat.testBit (wordAt (b.flushWrites idxs fs) (p * 1024 + w)) bit = true
            rw [flushWrites_wordAt b idxs fs p w hw p0 hp hpm]
            have h32 : (4294967296 : Nat) = 2 ^ 32 := by norm_num
            rw [h32, Nat.testBit_mod_two_pow]
            simp only [hbit, decide_True, Bool.true_and]
            exact htb
        · have hpd : p0.dirty = false := by
            dsimp only at hdclean
            rw [if_neg hpm] at hdclean
            exact hdclean
          obtain ⟨hk, hwb⟩ := hclean p p0 hp hpd w hw bit hbit htb
          have hsz := flushWrites_size_ge b idxs fs
          constructor
          · show p * 1024 + w < (b.flushWrites idxs fs).size / 4
            omega
          · show Nat.testBit (wordAt (b.flushWrites idxs fs) (p * 1024 + w)) bit = true
            have hbyteeq : ∀ r, r < 4 →
                (b.flushWrites idxs fs).byte (4 * (p * 1024 + w) + r)
                  = fs.byte (4 * (p * 1024 + w) + r) := by
              intro r hr
              refine flushWrites_byte_old b idxs fs _ ?_ ?_
              · omega
              · have hdiv : (4 * (p * 1024 + w) + r) / 4096 = p := by omega
                rw [hdiv]
                exact hpm
            have h0 := hbyteeq 0 (by norm_num)
            have h1 := hbyteeq 1 (by norm_num)
            have h2 := hbyteeq 2 (by norm_num)
            have h3 := hbyteeq 3 (by norm_num)
            simp only [Nat.add_zero] at h0
            simp only [wordAt] at hwb ⊢
            rw [h0, h1, h2, h3]
            exact hwb

theorem reopen_get (fs' : FileStore) (b2 : Bitfield)
    (hallclean : ∀ p pg, b2.pages p = some pg → pg.dirty = false)
    (hclean : cleanInv b2 fs') (i : Nat) (hget : b2.get i = true) :
    ∀ bf', Bitfield.openStorage fs'.toStorage = .ok bf' → bf'.get i = true := by
  rw [Bitfield.get_unfold] at hget
  cases hp : b2.pages ((i - i % 32768) / 32768) with
  | none => rw [hp] at hget; cases hget
  | some pg =>
    rw [hp] at hget
    dsimp only at hget
    rw [FixedBitfield.getBit_unfold, Bool.and_eq_true] at hget
    have hW : (i % 32768 - i % 32768 % 32) / 32 < 1024 := by omega
    have hbit : i % 32768 % 32 < 32 := by omega
    obtain ⟨hk, hwb⟩ := hclean _ pg hp (hallclean _ _ hp) _ hW _ hbit hget.2
    intro bf' hbf
    have hz : ¬(fs'.size - fs'.size % 4 = 0) := by omega
    have h4 : 4 ≤ fs'.size - fs'.size % 4 := by omega
    simp only [Bitfield.openStorage, FileStore.toStorage] at hbf
    rw [if_neg hz] at hbf
    rw [if_pos (by omega : 0 + (fs'.size - fs'.size % 4) ≤ fs'.size)] at hbf
    cases hbf
    rw [Bitfield.get_unfold]
    simp only [Bitfield.make]
    rw [if_pos h4]
    have hnum : (i - i % 32768) / 32768 < ((fs'.size - fs'.size % 4) / 4 + 1023) / 1024 := by
      omega
    rw [if_pos hnum, if_pos h4]
    dsimp only
    rw [FixedBitfield.getBit_unfold]
    dsimp only
    have hguard : (i % 32768 - i % 32768 % 32) / 32 < 1024 ∧
        (i - i % 32768) / 32768 * 1024 + (i % 32768 - i % 32768 % 32) / 32
          < (fs'.size - fs'.size % 4) / 4 := by
      exact ⟨hW, by omega⟩
    rw [if_pos hguard]
    rw [Bool.and_eq_true]
    refine ⟨by simpa using hW, ?_⟩
    have hcast : wordOfBytes
        (fs'.byte (0 + 4 * ((i - i % 32768) / 32768 * 1024 + (i % 32768 - i % 32768 % 32) / 32)))
        (fs'.byte (0 + (4 * ((i - i % 32768) / 32768 * 1024 + (i % 32768 - i % 32768 % 32) / 32) + 1)))
        (fs'.byte (0 + (4 * ((i - i % 32768) / 32768 * 1024 + (i % 32768 - i % 32768 % 32) / 32) + 2)))
        (fs'.byte (0 + (4 * ((i - i % 32768) / 32768 * 1024 + (i % 32768 - i % 32768 % 32) / 32) + 3)))
        = wordAt fs' ((i - i % 32768) / 32768 * 1024 + (i % 32768 - i % 32768 % 32) / 32) := by
      simp [wordAt]
    rw [hcast]
    exact hwb

theorem openStorage_toStorage_ok (fs : FileStore) :
    ∃ bf, Bitfield.openStorage fs.toStorage = .ok bf := by
  simp only [Bitfield.openStorage, FileStore.toStorage]
  by_cases hz : fs.size - fs.size % 4 = 0
  · rw [if_pos hz]; exact ⟨_, rfl⟩
  · rw [if_neg hz]
    rw [if_pos (by omega : 0 + (fs.size - fs.size % 4) ≤ fs.size)]
    exact ⟨_, rfl⟩

theorem foldl_set_cleanInv (ops : List Nat) (b : Bitfield) (fs : FileStore)
    (h : cleanInv b fs) :
    cleanInv (ops.foldl (fun acc n => Bitfield.set acc n true) b) fs := by
  induction ops generalizing b with
  | nil => exact h
  | cons o rest ih =>
    exact ih _ (set_cleanInv b fs o true h)

theorem foldl_set_dirtyInv (ops : List Nat) (b : Bitfield)
    (h : dirtyInv b) :
    dirtyInv (ops.foldl (fun acc n => Bitfield.set acc n true) b) := by
  induction ops generalizing b with
  | nil => exact h
  | cons o rest ih =>
    exact ih _ (set_dirtyInv b o true h)

theorem foldl_set_unflushed_isSome (ops : List Nat) (b : Bitfield) :
    ((ops.foldl (fun acc n => Bitfield.set acc n true) b).unflushed).isSome
      = b.unflushed.isSome := by
  induction ops generalizing b with
  | nil => rfl
  | cons o rest ih =>
    rw [List.foldl_cons, ih _, Bitfield.set_unflushed_isSome]

theorem foldl_set_get_of_true (ops : List Nat) (b : Bitfield) (i : Nat)
    (h : b.get i = true) :
    (ops.foldl (fun acc n => Bitfield.set acc n true) b).get i = true := by
  induction ops generalizing b with
  | nil => exact h
  | cons o rest ih =>
    rw [List.foldl_cons]
    exact ih _ (Bitfield.get_set_of_get_true b o h)

theorem foldl_set_get_mem (ops : List Nat) (b : Bitfield) (i : Nat) (hmem : i ∈ ops) :
    (ops.foldl (fun acc n => Bitfield.set acc n true) b).get i = true := by
  induction ops generalizing b with
  | nil => cases hmem
  | cons o rest ih =>
    rw [List.foldl_cons]
    rcases List.mem_cons.mp hmem with h | h
    · subst h
      exact foldl_set_get_of_true rest _ i (Bitfield.get_set_self_true b i)
    · exact ih _ h

/-- C5: for a bitfield opened over storage, any finite sequence of
`set(i, true)` calls followed by a completed `flush()` leaves storage from
which a freshly opened bitfield reports `get(i) = true` for every set
position `i`; and on the original bitfield, `get(i)` right after
`set(i, true)` is true regardless of flush state. -/
theorem claim_C5 :
    (∀ (fs : FileStore) (ops : List Nat) (bf0 : Bitfield),
      Bitfield.openStorage fs.toStorage = .ok bf0 →
      ∀ i, i ∈ ops →
        (Bitfield.openStorage
          ((Bitfield.flush (ops.foldl (fun b n => Bitfield.set b n true) bf0) fs).2).toStorage).map
          (fun bf2 => bf2.get i) = Except.ok true)
    ∧ (∀ b i, (Bitfield.set b i true).get i = true) := by
  constructor
  · intro fs ops bf0 hopen i hmem
    obtain ⟨hclean0, hdirty0, hunf0⟩ := openStorage_cleanInv fs bf0 hopen
    have hclean1 := foldl_set_cleanInv ops bf0 fs hclean0
    have hdirty1 := foldl_set_dirtyInv ops bf0 hdirty0
    have hsome : ((ops.foldl (fun b n => Bitfield.set b n true) bf0).unflushed).isSome = true := by
      rw [foldl_set_unflushed_isSome, hunf0]; rfl
    obtain ⟨idxs, hu1⟩ := Option.isSome_iff_exists.mp hsome
    obtain ⟨hall2, hclean2⟩ :=
      flush_clean (ops.foldl (fun b n => Bitfield.set b n true) bf0) fs idxs hu1 hclean1 hdirty1
    have hget1 : ((Bitfield.flush (ops.foldl (fun b n => Bitfield.set b n true) bf0) fs).1).get i
        = true := by
      rw [Bitfield.flush_fst_get]
      exact foldl_set_get_mem ops bf0 i hmem
    obtain ⟨bf2, hbf2⟩ := openStorage_toStorage_ok
      ((Bitfield.flush (ops.foldl (fun b n => Bitfield.set b n true) bf0) fs).2)
    have hget2 := reopen_get _ _ hall2 hclean2 i hget1 bf2 hbf2
    rw [hbf2]
    simp only [Except.map]
    rw [hget2]
  · intro b i
    exact Bitfield.get_set_self_true b i

theorem claim_C5_witness :
    Bitfield.openStorage emptyStore.toStorage = .ok (Bitfield.make true none)
    ∧ (5 : Nat) ∈ ([5] : List Nat)
    ∧ (Bitfield.openStorage
        ((Bitfield.flush (([5] : List Nat).foldl (fun b n => Bitfield.set b n true)
            (Bitfield.make true none)) emptyStore).2).toStorage).map
        (fun bf2 => bf2.get 5) = Except.ok true
    ∧ (Bitfield.set (Bitfield.make true none) 3 true).get 3 = true := by
  refine ⟨rfl, by simp, ?_, claim_C5.2 (Bitfield.make true none) 3⟩
  exact claim_C5.1 emptyStore [5] (Bitfield.make true none) rfl 5 (by simp)
